import Mathlib

/-!
# Verification of the turboread retrieval orchestrator

Shallow embedding of the core algorithms of `dot_pi/extensions/turboread`
(`index.ts`, `tools.ts`): selection normalization and merging, range
resolution, token-budgeted packing, the mini-agent retry/degradation loop,
and the tolerant argument-coercion pipeline.  JavaScript numbers that only
ever hold integers are modelled as `Nat`/`Int`; the fractional scoring
weights of the packer are modelled as `Rat`.  External collaborators
(`JSON.parse`, `jsonrepair`, the LSP service, the model transport, the
filesystem) appear as explicit function parameters or oracle inputs.

The file is laid out as: all definitions first, then the lemmas and the
claim theorems.
-/

namespace Turboread

/-- Selection confidence enum (`SelectionConfidence` in `types.ts`):
`"low" | "medium" | "high"`.  A missing/unrecognized value is modelled as
`Option.none` (the code uses `undefined`). -/
inductive SelectionConfidence where
  | low
  | medium
  | high
deriving DecidableEq, Repr, Fintype

/-- `CONFIDENCE_RANK` from `index.ts`: `{ low: 0, medium: 1, high: 2 }`. -/
def CONFIDENCE_RANK : SelectionConfidence → Nat
  | .low => 0
  | .medium => 1
  | .high => 2

/-- `betterConfidence(current, incoming)` from `index.ts`:
returns `incoming` when `current` is unset, `current` when `incoming` is
unset, otherwise the one with the strictly larger `CONFIDENCE_RANK`
(ties keep `current`). -/
def betterConfidence :
    Option SelectionConfidence → Option SelectionConfidence → Option SelectionConfidence
  | none, incoming => incoming
  | some c, none => some c
  | some c, some i =>
    if CONFIDENCE_RANK i > CONFIDENCE_RANK c then some i else some c

/-- A line range `{start, end}`.  `end` is a Lean keyword, so the field is
named `stop`.  Line numbers arriving from the LLM or the LSP collaborator
are arbitrary integers before clamping, hence `Int`. -/
structure Range where
  start : Int
  stop : Int
deriving DecidableEq, Repr

/-- Worker for keep-first deduplication carrying the `seen` set, exactly the
loop shape of `dedupeRanges` in `index.ts` (and of the `[...new Set(xs)]`
spreads used for symbol lists, since a JS `Set` keeps first occurrences). -/
def dedupeKeepFirstAux {α : Type} [DecidableEq α] (seen : List α) : List α → List α
  | [] => []
  | x :: xs =>
    if x ∈ seen then dedupeKeepFirstAux seen xs
    else x :: dedupeKeepFirstAux (x :: seen) xs

/-- Keep-first deduplication with an initially empty seen set. -/
def dedupeKeepFirst {α : Type} [DecidableEq α] (l : List α) : List α :=
  dedupeKeepFirstAux [] l

/-- `dedupeRanges` from `index.ts`.  The JS version keys the seen set by the
string `"start:end"`, which is injective on integer pairs, so deduplicating
by the `Range` value itself is the same function. -/
def dedupeRanges (ranges : List Range) : List Range :=
  dedupeKeepFirst ranges

-- Budget constants from `index.ts`.
def OUTPUT_SOFT_TOKEN_BUDGET : Nat := 45000
def OUTPUT_HARD_TOKEN_BUDGET : Nat := 60000
def OUTPUT_BASE_BUDGET : Nat := 18000
def OUTPUT_PER_QUERY_BUDGET : Nat := 9000

-- Range-resolution constants from `index.ts` (as `Int` because the range
-- arithmetic mixes them with possibly-negative incoming line numbers).
def DEFAULT_FALLBACK_LINES : Int := 60
def MAX_LINES_PER_RANGE : Int := 160
def MAX_LINES_PER_FILE : Int := 260
def RANGE_MERGE_GAP : Int := 2

/-- The `{soft, hard}` budget pair. -/
structure Budgets where
  soft : Nat
  hard : Nat
deriving DecidableEq, Repr

/-- `getQueryScaledBudgets(queryCount)` from `index.ts`.  JS
`Math.max(0, queryCount - 1)` coincides with truncated `Nat` subtraction. -/
def getQueryScaledBudgets (queryCount : Nat) : Budgets :=
  let scaledHard :=
    min OUTPUT_HARD_TOKEN_BUDGET
      (OUTPUT_BASE_BUDGET + OUTPUT_PER_QUERY_BUDGET * (queryCount - 1))
  { soft := min OUTPUT_SOFT_TOKEN_BUDGET scaledHard
    hard := scaledHard }

/-! ## Home-cwd guard (`isHomeCwd` and the early return in `execute`) -/

/-- `HOME_CWD_ERROR` from `index.ts`. -/
def HOME_CWD_ERROR : String :=
  "[turboread disabled at HOME cwd] Run turboread from a project directory (e.g. ~/dotfiles), not from ~/."

/-- `normalizePathForCompare(path)` from `index.ts`:
`path.replace(/\x2f+$/, "") || "/"` — strip every trailing slash, and an
all-slash (or empty) path normalizes to `"/"`. -/
def normalizePathForCompare (path : String) : String :=
  let stripped := String.mk (path.data.reverse.dropWhile (fun c => c = '/')).reverse
  if stripped = "" then "/" else stripped

/-- `isHomeCwd(cwd)` from `index.ts`; `homedir()` is an external collaborator
and is passed in as `home`. -/
def isHomeCwd (home cwd : String) : Bool :=
  normalizePathForCompare cwd == normalizePathForCompare home

/-- `UsageStats` from `types.ts` as used in `index.ts`
(`{input, output, cacheRead, cacheWrite, cost}`). -/
structure UsageStats where
  input : Nat
  output : Nat
  cacheRead : Nat
  cacheWrite : Nat
  cost : Rat
deriving DecidableEq, Repr

/-- The all-zero usage object built inline in `execute`. -/
def emptyUsage : UsageStats :=
  { input := 0, output := 0, cacheRead := 0, cacheWrite := 0, cost := 0 }

/-- `ToolExecution` entries of an agent's tool-call log (arguments are
untyped JS values; only the name and duration matter here). -/
structure ToolExecution where
  name : String
  durationMs : Nat
deriving DecidableEq, Repr

/-- `AgentState` from `index.ts`. -/
structure AgentState where
  query : String
  hints : Option String
  iterations : Nat
  toolCalls : List ToolExecution
  usage : UsageStats
  status : String
deriving DecidableEq, Repr

/-- Outcome of the prefix of `execute` in `index.ts` up to and including the
home-cwd guard: either the fixed early error return (text plus the
`ParallelDetails` fields it carries), or control proceeds into the body
(where `createLspContext` is called and agents are started). -/
inductive ExecGuardOutcome where
  | earlyHome (text : String) (status : String) (agents : List AgentState) (totalUsage : UsageStats)
  | proceeds
deriving DecidableEq, Repr

/-- The home-cwd guard of `execute`: `if (isHomeCwd(cwd)) return {...}`.
Nothing of the tool body (LSP context creation, agent spawning, relevance
scan) runs before this check. -/
def executeHomeGuard (home cwd : String) : ExecGuardOutcome :=
  if isHomeCwd home cwd then
    .earlyHome HOME_CWD_ERROR "error" [] emptyUsage
  else
    .proceeds

/-! ## Range resolution (`readFileSelections` in `index.ts`) -/

/-- The per-range clamp of the "Normalize + sort" step:
`{start: max(1, min(totalLines, trunc(r.start))), end: max(1, min(totalLines, trunc(r.end)))}`.
Inputs are already integers here, so `Math.trunc` is the identity. -/
def clampRange (totalLines : Int) (r : Range) : Range :=
  { start := max 1 (min totalLines r.start), stop := max 1 (min totalLines r.stop) }

/-- Stable insertion of a range into a list sorted by `start` ascending
(used to model the stable JS `sort((a, b) => a.start - b.start)`). -/
def insertByStart (r : Range) : List Range → List Range
  | [] => [r]
  | x :: xs => if r.start ≤ x.start then r :: x :: xs else x :: insertByStart r xs

/-- Stable sort by `start` ascending. -/
def sortByStart : List Range → List Range
  | [] => []
  | r :: rest => insertByStart r (sortByStart rest)

/-- Worker for the overlap/gap merge loop of `readFileSelections`.  The JS
loop keeps a `merged` array and only ever mutates its last element
(`last.end = Math.max(last.end, r.end)`), so it is equivalent to carrying
the trailing in-progress range `cur` and emitting it when a gap appears. -/
def mergeAdjAux (cur : Range) : List Range → List Range
  | [] => [cur]
  | r :: rest =>
    if r.start ≤ cur.stop + RANGE_MERGE_GAP then
      mergeAdjAux { start := cur.start, stop := max cur.stop r.stop } rest
    else
      cur :: mergeAdjAux r rest

/-- The "Merge overlapping / near-touching ranges" step. -/
def mergeCloseRanges : List Range → List Range
  | [] => []
  | r :: rest => mergeAdjAux r rest

/-- The "Clamp very large ranges" step: a span longer than
`MAX_LINES_PER_RANGE` is truncated to its first `MAX_LINES_PER_RANGE`
lines. -/
def clampLongRange (r : Range) : Range :=
  if r.stop - r.start + 1 ≤ MAX_LINES_PER_RANGE then r
  else { start := r.start, stop := r.start + MAX_LINES_PER_RANGE - 1 }

/-- The "Enforce per-file surfaced line cap" loop: walk the spans keeping a
`remaining` line budget; `break` once it is exhausted. -/
def limitRangesAux (remaining : Int) : List Range → List Range
  | [] => []
  | r :: rest =>
    if remaining ≤ 0 then []
    else
      let len := r.stop - r.start + 1
      let take := min len remaining
      { start := r.start, stop := r.start + take - 1 } :: limitRangesAux (remaining - take) rest

/-- The complete per-selection range pipeline of `readFileSelections`:
dedupe explicit ranges, union in LSP-resolved symbol ranges (the LSP
collaborator's answer is the oracle input `symbolRanges`, consulted only
when the selection lists symbol names), fall back to a fixed-size file
prefix when empty, clamp/filter/sort, merge near ranges, clamp long
ranges, and cap total lines per file. -/
def resolveSelectionRanges (totalLines : Int) (explicitRanges : List Range)
    (symbols : List String) (symbolRanges : List Range) : List Range :=
  let ranges0 := dedupeRanges explicitRanges
  let ranges1 :=
    if symbols ≠ [] then dedupeRanges (ranges0 ++ symbolRanges) else ranges0
  let ranges2 :=
    if ranges1 = [] then [({ start := 1, stop := min DEFAULT_FALLBACK_LINES totalLines } : Range)]
    else ranges1
  let normalized :=
    sortByStart ((ranges2.map (clampRange totalLines)).filter (fun r => r.start ≤ r.stop))
  let merged := mergeCloseRanges normalized
  let clamped := merged.map clampLongRange
  limitRangesAux MAX_LINES_PER_FILE clamped

/-- The range invariant of the spec: `1 ≤ start ≤ end ≤ totalLines`. -/
def RangeWF (totalLines : Int) (r : Range) : Prop :=
  1 ≤ r.start ∧ r.start ≤ r.stop ∧ r.stop ≤ totalLines

/-! ## Selections, metadata and the budget packer -/

/-- `FileSelection` from `types.ts` as produced by `normalizeSelection`:
optional `ranges`/`symbols` arrays are modelled as lists, with `[]` for
`undefined` (every consumer guards them with a `length > 0` check, so the
two are indistinguishable downstream). -/
structure FileSelection where
  file : String
  ranges : List Range
  symbols : List String
  reason : String
  confidence : Option SelectionConfidence
deriving DecidableEq, Repr

/-- `FileSelectionMeta` as built inside `readFileSelections` (`index.ts`),
restricted to the fields the packer consumes.  `queryCount`/`shared` are
optional in the source (`metaInfo?.queryCount`). -/
structure FileSelectionMeta where
  file : String
  totalLines : Int
  selectedLines : Nat
  estimatedTokens : Nat
  ranges : List Range
  symbols : List String
  reason : String
  confidence : Option SelectionConfidence
  queryCount : Option Nat
  shared : Option Bool
  fallbackUsed : Bool
  fullFile : Bool
deriving DecidableEq, Repr

/-- `ReadSelectionChunk` from `index.ts`. -/
structure ReadSelectionChunk where
  selection : FileSelection
  content : String
  loc : Nat
  meta : FileSelectionMeta
deriving DecidableEq, Repr

/-- `scoreSelectionMeta(meta)` from `index.ts`, with the JS float weights
carried exactly as rationals. -/
def scoreSelectionMeta (meta : FileSelectionMeta) : Rat :=
  let score : Rat := 1
  let score := score +
    (match meta.confidence with
      | some .high => (22 : Rat) / 10
      | some .medium => 1
      | some .low => -(4 : Rat) / 10
      | none => 0)
  let score := score +
    (if meta.queryCount.getD 0 > 1 then
      (13 : Rat) / 10 + (4 : Rat) / 10 * ((meta.queryCount.getD 1 : Rat) - 1)
    else 0)
  let score := score + (if meta.symbols.length > 0 then (14 : Rat) / 10 else 0)
  let score := score + (if meta.ranges.length > 0 then (6 : Rat) / 10 else 0)
  let selected := meta.selectedLines
  let score := score +
    (if 0 < selected ∧ selected ≤ 120 then (8 : Rat) / 10
     else if selected ≤ 240 then (4 : Rat) / 10
     else if selected > 420 then -(5 : Rat) / 10
     else 0)
  let score := score + (if meta.fallbackUsed then -(9 : Rat) / 10 else 0)
  let score := score + (if meta.fullFile ∧ selected > 220 then -(12 : Rat) / 10 else 0)
  score

/-- `canExceedSoftBudget(meta)` from `index.ts`: the "strong" predicate —
high confidence, or shared across more than one query with symbols
present, or at least two resolved symbols without fallback. -/
def canExceedSoftBudget (meta : FileSelectionMeta) : Bool :=
  meta.confidence = some .high ∨
    (meta.queryCount.getD 0 > 1 ∧ meta.symbols.length > 0) ∨
    (meta.symbols.length ≥ 2 ∧ ¬meta.fallbackUsed)

/-- The token cost the packer accounts for a chunk:
`Math.max(1, entry.meta.estimatedTokens || 1)` (for naturals, `|| 1` is
subsumed by the `max`). -/
def tokenCost (entry : ReadSelectionChunk) : Nat :=
  max 1 entry.meta.estimatedTokens

/-- A ranked chunk as produced by the `.map` at the top of
`packSelectionChunks`. -/
structure RankedChunk where
  entry : ReadSelectionChunk
  value : Rat
  tokens : Nat
  density : Rat

/-- The ranking map of `packSelectionChunks`. -/
def rankChunk (entry : ReadSelectionChunk) : RankedChunk :=
  let value := scoreSelectionMeta entry.meta
  let tokens := tokenCost entry
  { entry := entry, value := value, tokens := tokens, density := value / (tokens : Rat) }

/-- The sort comparator of `packSelectionChunks` as a "comes no later than"
predicate: density descending, ties by value descending, then by token
cost ascending. -/
def rankedLE (a b : RankedChunk) : Bool :=
  b.density < a.density ∨
    (a.density = b.density ∧
      (b.value < a.value ∨ (a.value = b.value ∧ a.tokens ≤ b.tokens)))

/-- Stable insertion for `sortRanked`. -/
def insertRanked (r : RankedChunk) : List RankedChunk → List RankedChunk
  | [] => [r]
  | x :: xs => if rankedLE r x then r :: x :: xs else x :: insertRanked r xs

/-- Stable sort modelling the JS `Array.prototype.sort` call (stable per
ES2019) with the comparator above. -/
def sortRanked : List RankedChunk → List RankedChunk
  | [] => []
  | r :: rest => insertRanked r (sortRanked rest)

/-- The result record of `packSelectionChunks`. -/
structure PackResult where
  included : List ReadSelectionChunk
  omitted : List ReadSelectionChunk
  usedTokens : Nat
  usedLoc : Nat

/-- One step of the greedy packing walk: accept while the running total
stays within `soft`; past `soft`, accept only a "strong" chunk that still
fits under `hard`; otherwise mark omitted. -/
def packStep (budgets : Budgets) (st : PackResult) (item : RankedChunk) : PackResult :=
  if st.usedTokens + item.tokens ≤ budgets.soft then
    { st with
        included := st.included ++ [item.entry]
        usedTokens := st.usedTokens + item.tokens
        usedLoc := st.usedLoc + item.entry.loc }
  else if st.usedTokens + item.tokens ≤ budgets.hard ∧ canExceedSoftBudget item.entry.meta then
    { st with
        included := st.included ++ [item.entry]
        usedTokens := st.usedTokens + item.tokens
        usedLoc := st.usedLoc + item.entry.loc }
  else
    { st with omitted := st.omitted ++ [item.entry] }

/-- `packSelectionChunks(entries, budgets)` from `index.ts`: rank, sort,
then walk greedily (`next = usedTokens + tok` is inlined). -/
def packSelectionChunks (entries : List ReadSelectionChunk) (budgets : Budgets) : PackResult :=
  (sortRanked (entries.map rankChunk)).foldl (packStep budgets)
    { included := [], omitted := [], usedTokens := 0, usedLoc := 0 }

/-- The force-accept step that `execute` runs right after packing:
`if (packed.included.length === 0 && packed.omitted.length > 0)
packed.included.push(packed.omitted[0])` (pushing `omitted[0]` onto an
empty array is appending the one-element prefix of `omitted`). -/
def forceIncludeFirstOmitted (p : PackResult) : PackResult :=
  if p.included.length = 0 ∧ 0 < p.omitted.length then
    { p with included := p.included ++ p.omitted.take 1 }
  else p

/-- Total estimated tokens of the surfaced chunks, as summed by `execute`
(`includedMetas.reduce((acc, meta) => acc + (meta.estimatedTokens || 0), 0)`). -/
def sumEstimatedTokens (l : List ReadSelectionChunk) : Nat :=
  (l.map (fun e => e.meta.estimatedTokens)).sum

/-- A concrete candidate chunk used by counterexamples and witnesses: a
single lone chunk, not "strong", whose estimated cost exceeds the
single-query hard ceiling. -/
def oversizedChunk : ReadSelectionChunk :=
  { selection := {
      file := "big.ts"
      ranges := [{ start := 1, stop := 260 }]
      symbols := []
      reason := "Relevant to query"
      confidence := none }
    content := ""
    loc := 260
    meta := {
      file := "big.ts"
      totalLines := 4000
      selectedLines := 260
      estimatedTokens := 20000
      ranges := [{ start := 1, stop := 260 }]
      symbols := []
      reason := "Relevant to query"
      confidence := none
      queryCount := some 1
      shared := some false
      fallbackUsed := false
      fullFile := false } }

/-! ## Selection merging (`execute`'s merge loop, `index.ts`) -/

/-- Character-list prefix test (JS string comparison, spelled out to keep
the development self-contained). -/
def leadsWith {α : Type} [DecidableEq α] : List α → List α → Bool
  | [], _ => true
  | _ :: _, [] => false
  | a :: as, b :: bs => a = b && leadsWith as bs

/-- Character-list containment: `containsSeq sub l` is true when `sub`
occurs contiguously inside `l`. -/
def containsSeq {α : Type} [DecidableEq α] (sub : List α) : List α → Bool
  | [] => leadsWith sub []
  | c :: rest => leadsWith sub (c :: rest) || containsSeq sub rest

/-- JS `hay.includes(sub)` on strings. -/
def strIncludes (hay sub : String) : Bool :=
  containsSeq sub.data hay.data

/-- The reason-merge of `execute`'s loop:
`if (sel.reason && !(entry.sel.reason && entry.sel.reason.includes(sel.reason)))
 entry.sel.reason = entry.sel.reason ? entry.sel.reason + "; " + sel.reason : sel.reason`
(JS string truthiness is non-emptiness). -/
def mergeReason (cur incoming : String) : String :=
  if incoming ≠ "" ∧ ¬(cur ≠ "" ∧ strIncludes cur incoming = true) then
    if cur ≠ "" then cur ++ "; " ++ incoming else incoming
  else cur

/-- `entry.queries.add(q.query)` on a JS `Set` kept in insertion order. -/
def addQueryOnce (qs : List String) (q : String) : List String :=
  if q ∈ qs then qs else qs ++ [q]

/-- The per-file accumulator held in `fileMap`: the mutable `entry.sel`
fields (minus the constant `file`) plus the `queries` set. -/
structure MergedEntry where
  ranges : List Range
  symbols : List String
  reason : String
  confidence : Option SelectionConfidence
  queries : List String
deriving DecidableEq, Repr

/-- The fresh entry created when a file is first seen:
`{file, ranges: [], symbols: [], reason: sel.reason, confidence: sel.confidence}`
with an empty query set. -/
def initEntry (sel : FileSelection) : MergedEntry :=
  { ranges := [], symbols := [], reason := sel.reason
    confidence := sel.confidence, queries := [] }

/-- The body of `execute`'s merge loop applied to an existing entry:
add the query to the set, union ranges (`dedupeRanges`) and symbols
(`new Set`) when the incoming lists are non-empty, raise confidence via
`betterConfidence`, and concatenate the reason when distinct. -/
def mergeInto (e : MergedEntry) (q : String) (sel : FileSelection) : MergedEntry :=
  { ranges := if sel.ranges ≠ [] then dedupeRanges (e.ranges ++ sel.ranges) else e.ranges
    symbols :=
      if sel.symbols ≠ [] then dedupeKeepFirst (e.symbols ++ sel.symbols) else e.symbols
    reason := mergeReason e.reason sel.reason
    confidence := betterConfidence e.confidence sel.confidence
    queries := addQueryOnce e.queries q }

/-- `fileMap.get(file)` on the insertion-ordered map modelled as an
association list. -/
def findEntry : List (String × MergedEntry) → String → Option MergedEntry
  | [], _ => none
  | (f, e) :: rest, k => if f = k then some e else findEntry rest k

/-- Replace the value stored at an existing key (the in-place mutation of
the JS `Map` entry). -/
def updateEntry : List (String × MergedEntry) → String → MergedEntry → List (String × MergedEntry)
  | [], _, _ => []
  | (f, e) :: rest, k, v => if f = k then (f, v) :: rest else (f, e) :: updateEntry rest k v

/-- One iteration of the merge loop for the contribution `(q, sel)`:
create the entry on first sight of the file (`fileMap.set`), then run the
merge body on it. -/
def mergeStep (m : List (String × MergedEntry)) (q : String) (sel : FileSelection) :
    List (String × MergedEntry) :=
  match findEntry m sel.file with
  | none => m ++ [(sel.file, mergeInto (initEntry sel) q sel)]
  | some e => updateEntry m sel.file (mergeInto e q sel)

/-- Run the merge loop over a list of `(query, normalized selection)`
contributions (the flattened `results × files` double loop of `execute`). -/
def mergeAll (contribs : List (String × FileSelection)) : List (String × MergedEntry) :=
  contribs.foldl (fun m p => mergeStep m p.1 p.2) []

/-- Merging exactly two contributions for the same file, in order:
first contribution creates the entry and is merged in, second is merged
on top (the shape the commutativity claim quantifies over). -/
def mergeTwo (qA : String) (A : FileSelection) (qB : String) (B : FileSelection) : MergedEntry :=
  mergeInto (mergeInto (initEntry A) qA A) qB B

/-- An entry absorbs a contribution when merging that contribution again
would change nothing: the query is recorded, the ranges and symbols are
all present, the confidence cannot be raised, and the reason text is
already contained. -/
def Absorbs (e : MergedEntry) (q : String) (sel : FileSelection) : Prop :=
  q ∈ e.queries ∧
  (∀ r ∈ sel.ranges, r ∈ e.ranges) ∧
  (∀ x ∈ sel.symbols, x ∈ e.symbols) ∧
  betterConfidence e.confidence sel.confidence = e.confidence ∧
  (sel.reason ≠ "" → (e.reason ≠ "" ∧ strIncludes e.reason sel.reason = true))

/-- Structural invariant of merged entries: range and symbol lists are
duplicate-free (they are outputs of the dedup helpers). -/
def EntryWF (e : MergedEntry) : Prop :=
  e.ranges.Nodup ∧ e.symbols.Nodup

/-- Concrete selections for the commutativity counterexample: same file,
distinct reasons. -/
def selAlpha : FileSelection :=
  { file := "f.ts", ranges := [{ start := 1, stop := 5 }], symbols := ["a"]
    reason := "alpha", confidence := some .low }

def selBeta : FileSelection :=
  { file := "f.ts", ranges := [{ start := 10, stop := 20 }], symbols := ["b"]
    reason := "beta", confidence := some .high }


/-! ## Mini-agent retry loop (`runMiniAgent` in `index.ts`) -/

-- Retry constants from `runMiniAgent`.
def RETRY_WALL_TIME_MS : Int := 30000
def INITIAL_BACKOFF_MS : Int := 500

/-- The thrown-error classifier of the completion `catch` block:
`errMsg.includes("rate") || errMsg.includes("429") || errMsg.includes("503")
 || errMsg.includes("502") || errMsg.includes("500")`. -/
def isTransientErrorMessage (msg : String) : Bool :=
  strIncludes msg "rate" || strIncludes msg "429" || strIncludes msg "503" ||
    strIncludes msg "502" || strIncludes msg "500"

/-- The in-band error detector:
`response.stopReason === "error" || response.stopReason === "aborted"`. -/
def isErrorStopReason (stopReason : String) : Bool :=
  stopReason == "error" || stopReason == "aborted"

/-- The retry bookkeeping of one mini-agent: the loop counter plus the
closure variables of `getTransientBackoff`. -/
structure RetryState where
  iterations : Nat
  transientRetryCount : Nat
  transientRetryStart : Int
deriving DecidableEq, Repr

/-- `getTransientBackoff()` from `index.ts`, with `Date.now()` passed in as
`now`: record the window start on the first failure, return `-1` once the
elapsed wall time reaches `RETRY_WALL_TIME_MS`, otherwise bump the retry
count and return `min(INITIAL_BACKOFF_MS * 2^(count-1), remaining)`. -/
def getTransientBackoff (st : RetryState) (now : Int) : RetryState × Int :=
  let start := if st.transientRetryCount = 0 then now else st.transientRetryStart
  let elapsed := now - start
  if RETRY_WALL_TIME_MS ≤ elapsed then
    ({ st with transientRetryStart := start }, -1)
  else
    ({ st with transientRetryCount := st.transientRetryCount + 1, transientRetryStart := start },
      min (INITIAL_BACKOFF_MS * 2 ^ st.transientRetryCount) (RETRY_WALL_TIME_MS - elapsed))

/-- What one completion attempt produced: a thrown exception with a
message, or a response with its in-band `stopReason` (content and usage
do not matter to the retry decision). -/
inductive CompletionOutcome where
  | threw (msg : String)
  | responded (stopReason : String)
deriving DecidableEq, Repr

/-- How the loop iteration ends for retry purposes: sleep `delayMs` and
retry without consuming an iteration, terminate the agent (with the
status `emit`ted), or proceed into tool handling. -/
inductive LoopStepResult where
  | retryTransient (delayMs : Int) (st : RetryState)
  | terminate (status : String) (st : RetryState)
  | proceed (st : RetryState)
deriving DecidableEq, Repr

/-- The shared transient-failure path (`iterations--` then backoff-or-die),
duplicated in the source for the thrown and in-band cases.  The state
passed in already has the loop-top `iterations++` applied. -/
def transientRetryOutcome (st1 : RetryState) (now : Int) : LoopStepResult :=
  if 0 ≤ (getTransientBackoff st1 now).2 then
    .retryTransient (getTransientBackoff st1 now).2
      { (getTransientBackoff st1 now).1 with iterations := st1.iterations - 1 }
  else
    .terminate "error" (getTransientBackoff st1 now).1

/-- One iteration of `runMiniAgent`'s main loop, restricted to the
completion-response classification: `iterations++` at the top; a thrown
error retries only when its message is transient, otherwise terminates
with status `"error"`; a non-throwing response with `stopReason`
`"error"`/`"aborted"` takes the identical transient path; any other
response resets the transient counter and proceeds. -/
def loopIterationStep (st : RetryState) (now : Int) (outcome : CompletionOutcome) :
    LoopStepResult :=
  match outcome with
  | .threw msg =>
    if isTransientErrorMessage msg then
      transientRetryOutcome { st with iterations := st.iterations + 1 } now
    else
      .terminate "error" { st with iterations := st.iterations + 1 }
  | .responded stopReason =>
    if isErrorStopReason stopReason then
      transientRetryOutcome { st with iterations := st.iterations + 1 } now
    else
      .proceed { st with iterations := st.iterations + 1, transientRetryCount := 0 }

/-- The wall-clock window start `getTransientBackoff` measures from (spec
shorthand used by the C6 statement). -/
def retryWindowStart (st : RetryState) (now : Int) : Int :=
  if st.transientRetryCount = 0 then now else st.transientRetryStart

/-! ## Argument coercion (`coerceArray` in `tools.ts`) -/

/-- Untyped JS values as far as `coerceArray` can distinguish them:
arrays, strings, and everything else. -/
inductive JsVal where
  | arr (elems : List JsVal)
  | str (s : String)
  | other

/-- `coerceArray(raw)` from `tools.ts`.  The external collaborators are
parameters: `parse` is `JSON.parse` (`none` models a throw), `repair` is
`jsonrepair` (`none` models a `JSONRepairError`), `preprocess` is
`preprocessMalformedJson` (total: a chain of regex replacements).  An
array is returned as-is; a non-array non-string yields the empty list; a
string is trimmed, gated on starting with `[` or `{`, then pushed through
the three layers (strict parse; repair then parse; preprocess, repair,
then parse), each accepted only when it yields an array; otherwise the
empty list. -/
def coerceArray (parse : String → Option JsVal) (repair : String → Option String)
    (preprocess : String → String) (raw : JsVal) : List JsVal :=
  match raw with
  | .arr xs => xs
  | .str s =>
    if ¬(s.trim.startsWith "[") ∧ ¬(s.trim.startsWith "\x7b") then []
    else
      match parse s.trim with
      | some (.arr xs) => xs
      | _ =>
        match (repair s.trim).bind parse with
        | some (.arr xs) => xs
        | _ =>
          match (repair (preprocess s.trim)).bind parse with
          | some (.arr xs) => xs
          | _ => []
  | .other => []

/-! ## LSP capability degradation (`runMiniAgent` in `index.ts`) -/

/-- `isLspToolName(toolName)` from `index.ts`. -/
def isLspToolName (toolName : String) : Bool :=
  toolName == "lsp_symbols" || toolName == "lsp_references"

/-- JS `result.toLowerCase()`, modelled as a per-character map over the
string's characters (`String.toLower` does the same but is not
kernel-reducible; every needle compared against is ASCII). -/
def strToLower (s : String) : String :=
  String.mk (s.data.map Char.toLower)

/-- `isLspInitTimeoutResult(result)` from `index.ts`. -/
def isLspInitTimeoutResult (result : String) : Bool :=
  strIncludes (strToLower result) "initialize timed out" ||
    strIncludes (strToLower result) "lsp request initialize timed out"

/-- `isLspUnavailableResult(result)` from `index.ts`. -/
def isLspUnavailableResult (result : String) : Bool :=
  strIncludes (strToLower result) "[no lsp server]" ||
    strIncludes (strToLower result) "lsp unavailable" || isLspInitTimeoutResult result

/-- The LSP-guardrail state of one mini-agent run: the three closure
flags, plus a count of how many "do not call lsp_* tools" notification
messages have been pushed into the history. -/
structure LspRunState where
  lspUnavailable : Bool
  lspUnavailableReason : String
  lspUnavailableNotified : Bool
  notifiedCount : Nat
deriving DecidableEq, Repr

/-- All three flags start false / empty. -/
def initialLspRunState : LspRunState :=
  { lspUnavailable := false, lspUnavailableReason := ""
    lspUnavailableNotified := false, notifiedCount := 0 }

/-- The per-call result served inside the `Promise.all` fan-out: when the
tool is an LSP tool and the capability is marked unavailable, a fixed
`[LSP unavailable: ...]` string is returned immediately and the oracle
(`executeTool`, the expensive external call) is never consulted;
otherwise the oracle's answer is returned. -/
def lspCallResult (st : LspRunState) (toolName oracleResult : String) : String :=
  if isLspToolName toolName ∧ st.lspUnavailable then
    "[LSP unavailable: " ++
      (if st.lspUnavailableReason ≠ "" then st.lspUnavailableReason
       else "initialization failed") ++ "]"
  else oracleResult

/-- The results of one turn's tool calls (`calls` pairs each tool name
with the answer the external executor would give). -/
def turnResults (st : LspRunState) (calls : List (String × String)) :
    List (String × String) :=
  calls.map (fun c => (c.1, lspCallResult st c.1 c.2))

/-- `sawLspUnavailable` for a turn: some executed LSP call's result
indicates unavailability. -/
def turnSawLspUnavailable (st : LspRunState) (calls : List (String × String)) : Bool :=
  (turnResults st calls).any (fun c => isLspToolName c.1 && isLspUnavailableResult c.2)

/-- The latch: `if (sawLspUnavailable && !lspUnavailable) ...`. -/
def lspLatchStep (st : LspRunState) (calls : List (String × String)) : LspRunState :=
  if turnSawLspUnavailable st calls ∧ ¬st.lspUnavailable then
    { st with lspUnavailable := true, lspUnavailableReason := "initialize timeout" }
  else st

/-- The one-shot notification:
`if (lspUnavailable && !lspUnavailableNotified) ...`. -/
def lspNotifyStep (st : LspRunState) : LspRunState :=
  if st.lspUnavailable ∧ ¬st.lspUnavailableNotified then
    { st with lspUnavailableNotified := true, notifiedCount := st.notifiedCount + 1 }
  else st

/-- The LSP bookkeeping of one full loop turn. -/
def lspTurnStep (st : LspRunState) (calls : List (String × String)) : LspRunState :=
  lspNotifyStep (lspLatchStep st calls)

/-- A whole run's worth of turns. -/
def lspRun (st : LspRunState) (turns : List (List (String × String))) : LspRunState :=
  turns.foldl lspTurnStep st

end Turboread

/-! ## Lemmas and claim theorems -/

namespace Turboread

theorem mem_insertByStart {r x : Range} {l : List Range} :
    x ∈ insertByStart r l ↔ x = r ∨ x ∈ l := by
  induction l with
  | nil => simp [insertByStart]
  | cons y ys ih =>
    simp only [insertByStart]
    split
    · simp
    · simp [ih]
      tauto

theorem mem_sortByStart {x : Range} {l : List Range} :
    x ∈ sortByStart l ↔ x ∈ l := by
  induction l with
  | nil => simp [sortByStart]
  | cons y ys ih =>
    simp [sortByStart, mem_insertByStart, ih]

theorem mergeAdjAux_wf {totalLines : Int} {cur : Range} {l : List Range}
    (hcur : RangeWF totalLines cur) (hl : ∀ r ∈ l, RangeWF totalLines r) :
    ∀ x ∈ mergeAdjAux cur l, RangeWF totalLines x := by
  induction l generalizing cur with
  | nil =>
    intro x hx
    simp only [mergeAdjAux, List.mem_singleton] at hx
    exact hx ▸ hcur
  | cons r rest ih =>
    intro x hx
    have hr : RangeWF totalLines r := hl r (by simp)
    have hrest : ∀ y ∈ rest, RangeWF totalLines y := fun y hy => hl y (by simp [hy])
    simp only [mergeAdjAux] at hx
    split at hx
    · have hcur2 : RangeWF totalLines { start := cur.start, stop := max cur.stop r.stop } := by
        obtain ⟨h1, h2, h3⟩ := hcur
        obtain ⟨g1, g2, g3⟩ := hr
        exact ⟨h1, le_trans h2 (le_max_left _ _), max_le h3 g3⟩
      exact ih hcur2 hrest x hx
    · rcases List.mem_cons.mp hx with h | h
      · exact h ▸ hcur
      · exact ih hr hrest x h

theorem mergeCloseRanges_wf {totalLines : Int} {l : List Range}
    (hl : ∀ r ∈ l, RangeWF totalLines r) :
    ∀ x ∈ mergeCloseRanges l, RangeWF totalLines x := by
  cases l with
  | nil => intro x hx; simp [mergeCloseRanges] at hx
  | cons r rest =>
    exact mergeAdjAux_wf (hl r (by simp)) (fun y hy => hl y (by simp [hy]))

theorem clampLongRange_wf {totalLines : Int} {r : Range}
    (hr : RangeWF totalLines r) : RangeWF totalLines (clampLongRange r) := by
  obtain ⟨h1, h2, h3⟩ := hr
  unfold clampLongRange MAX_LINES_PER_RANGE
  split
  · exact ⟨h1, h2, h3⟩
  · refine ⟨h1, ?_, ?_⟩ <;> dsimp only <;> omega

theorem limitRangesAux_wf {totalLines remaining : Int} {l : List Range}
    (hl : ∀ r ∈ l, RangeWF totalLines r) :
    ∀ x ∈ limitRangesAux remaining l, RangeWF totalLines x := by
  induction l generalizing remaining with
  | nil => intro x hx; simp [limitRangesAux] at hx
  | cons r rest ih =>
    intro x hx
    have hr := hl r (by simp)
    obtain ⟨h1, h2, h3⟩ := hr
    simp only [limitRangesAux] at hx
    split at hx
    · simp at hx
    · rcases List.mem_cons.mp hx with h | h
      · subst h
        refine ⟨h1, ?_, ?_⟩ <;> simp only [] <;> omega
      · exact ih (fun y hy => hl y (by simp [hy])) x h

/-- C3: every range produced by the range-resolution pipeline of
`readFileSelections` satisfies `1 ≤ start ≤ end ≤ totalLines` — after
fallback, clamping, sorting, gap-merging, per-range clamping and the
per-file line cap — for every file (`content.split("\n")` always yields at
least one line, so `1 ≤ totalLines`), every explicit range list, every
symbol list, and every answer of the LSP collaborator. -/
theorem c3_resolved_ranges_wf (totalLines : Int) (explicitRanges : List Range)
    (symbols : List String) (symbolRanges : List Range)
    (htl : 1 ≤ totalLines) :
    ∀ r ∈ resolveSelectionRanges totalLines explicitRanges symbols symbolRanges,
      1 ≤ r.start ∧ r.start ≤ r.stop ∧ r.stop ≤ totalLines := by
  intro r hr
  unfold resolveSelectionRanges at hr
  have hnorm : ∀ x ∈ sortByStart
      ((((if (if symbols ≠ [] then
              dedupeRanges (dedupeRanges explicitRanges ++ symbolRanges)
            else dedupeRanges explicitRanges) = [] then
            [({ start := 1, stop := min DEFAULT_FALLBACK_LINES totalLines } : Range)]
          else (if symbols ≠ [] then
              dedupeRanges (dedupeRanges explicitRanges ++ symbolRanges)
            else dedupeRanges explicitRanges))).map (clampRange totalLines)).filter
        (fun r => decide (r.start ≤ r.stop))), RangeWF totalLines x := by
    intro x hx
    rw [mem_sortByStart] at hx
    rw [List.mem_filter] at hx
    obtain ⟨hmem, hle⟩ := hx
    rw [List.mem_map] at hmem
    obtain ⟨y, _, rfl⟩ := hmem
    have hle' : (clampRange totalLines y).start ≤ (clampRange totalLines y).stop :=
      of_decide_eq_true hle
    refine ⟨?_, hle', ?_⟩
    · simp [clampRange]
    · simp only [clampRange]
      omega
  exact limitRangesAux_wf
    (fun y hy => by
      rw [List.mem_map] at hy
      obtain ⟨z, hz, rfl⟩ := hy
      exact clampLongRange_wf (mergeCloseRanges_wf hnorm z hz)) r hr

/-- Witness for C3: a 10-line file with one raw range reaching past the end
and one symbol-resolved range starting below line 1. -/
theorem c3_resolved_ranges_wf_witness :
    (1 : Int) ≤ 10 ∧
      ∀ r ∈ resolveSelectionRanges 10 [{ start := 4, stop := 99 }] ["f"]
          [{ start := -3, stop := 5 }],
        1 ≤ r.start ∧ r.start ≤ r.stop ∧ r.stop ≤ 10 :=
  ⟨by decide,
    c3_resolved_ranges_wf 10 [{ start := 4, stop := 99 }] ["f"]
      [{ start := -3, stop := 5 }] (by decide)⟩

/-- C9: for every query count `n ≥ 1` the computed budgets are
`soft = min 45000 (18000 + 9000*(n-1))` and
`hard = min 60000 (18000 + 9000*(n-1))`, and `soft ≤ hard`. -/
theorem c9_query_scaled_budgets (n : Nat) (h : 1 ≤ n) :
    (getQueryScaledBudgets n).soft = min 45000 (18000 + 9000 * (n - 1)) ∧
    (getQueryScaledBudgets n).hard = min 60000 (18000 + 9000 * (n - 1)) ∧
    (getQueryScaledBudgets n).soft ≤ (getQueryScaledBudgets n).hard := by
  unfold getQueryScaledBudgets OUTPUT_SOFT_TOKEN_BUDGET OUTPUT_HARD_TOKEN_BUDGET
    OUTPUT_BASE_BUDGET OUTPUT_PER_QUERY_BUDGET
  refine ⟨?_, rfl, ?_⟩ <;> simp only [] <;> omega

/-- Witness for C9 at `n = 3`. -/
theorem c9_query_scaled_budgets_witness :
    (getQueryScaledBudgets 3).soft = min 45000 (18000 + 9000 * (3 - 1)) ∧
    (getQueryScaledBudgets 3).hard = min 60000 (18000 + 9000 * (3 - 1)) ∧
    (getQueryScaledBudgets 3).soft ≤ (getQueryScaledBudgets 3).hard :=
  c9_query_scaled_budgets 3 (by decide)

/-- C10: when the tool's working directory equals the user's home directory
after stripping trailing slashes, `execute` returns the fixed
`HOME_CWD_ERROR` text with status `"error"`, an empty agents list and
all-zero usage, before anything else (LSP context, relevance scan, agents)
is started; and when they differ, the guard lets the body proceed. -/
theorem c10_home_cwd_guard (home cwd : String)
    (h : normalizePathForCompare cwd = normalizePathForCompare home) :
    executeHomeGuard home cwd =
      .earlyHome HOME_CWD_ERROR "error" [] emptyUsage ∧
    ∀ home' cwd', normalizePathForCompare cwd' ≠ normalizePathForCompare home' →
      executeHomeGuard home' cwd' = .proceeds := by
  constructor
  · unfold executeHomeGuard isHomeCwd
    rw [h]
    simp
  · intro home' cwd' hne
    unfold executeHomeGuard isHomeCwd
    simp only [beq_iff_eq]
    rw [if_neg hne]

/-- Witness for C10: `cwd = "/home/user/"` with `home = "/home/user"`. -/
theorem c10_home_cwd_guard_witness :
    executeHomeGuard "/home/user" "/home/user/" =
      .earlyHome HOME_CWD_ERROR "error" [] emptyUsage ∧
    ∀ home' cwd', normalizePathForCompare cwd' ≠ normalizePathForCompare home' →
      executeHomeGuard home' cwd' = .proceeds :=
  c10_home_cwd_guard "/home/user" "/home/user/" (by decide)

/-! ### Dedup, string-containment and confidence lemmas (C4, C5) -/

theorem mem_dedupeKeepFirstAux {α : Type} [DecidableEq α] {x : α} {l : List α} :
    ∀ {seen : List α}, x ∈ dedupeKeepFirstAux seen l ↔ x ∈ l ∧ x ∉ seen := by
  induction l with
  | nil => intro seen; simp [dedupeKeepFirstAux]
  | cons y ys ih =>
    intro seen
    unfold dedupeKeepFirstAux
    split
    · rename_i hy
      rw [ih]
      simp only [List.mem_cons]
      constructor
      · rintro ⟨hx, hns⟩
        exact ⟨Or.inr hx, hns⟩
      · rintro ⟨rfl | hx, hns⟩
        · exact absurd hy hns
        · exact ⟨hx, hns⟩
    · rename_i hy
      simp only [List.mem_cons, ih]
      constructor
      · rintro (rfl | ⟨hx, hns⟩)
        · exact ⟨Or.inl rfl, hy⟩
        · exact ⟨Or.inr hx, fun hs => hns (Or.inr hs)⟩
      · rintro ⟨rfl | hx, hns⟩
        · exact Or.inl rfl
        · by_cases hxy : x = y
          · exact Or.inl hxy
          · exact Or.inr ⟨hx, fun h => h.elim hxy hns⟩

theorem mem_dedupeKeepFirst {α : Type} [DecidableEq α] {x : α} {l : List α} :
    x ∈ dedupeKeepFirst l ↔ x ∈ l := by
  unfold dedupeKeepFirst
  rw [mem_dedupeKeepFirstAux]
  simp

theorem nodup_dedupeKeepFirstAux {α : Type} [DecidableEq α] (l : List α) :
    ∀ seen : List α, (dedupeKeepFirstAux seen l).Nodup := by
  induction l with
  | nil => intro seen; simp [dedupeKeepFirstAux]
  | cons y ys ih =>
    intro seen
    unfold dedupeKeepFirstAux
    split
    · exact ih seen
    · refine List.nodup_cons.mpr ⟨?_, ih (y :: seen)⟩
      rw [mem_dedupeKeepFirstAux]
      rintro ⟨-, hns⟩
      exact hns (List.mem_cons_self y seen)

theorem nodup_dedupeKeepFirst {α : Type} [DecidableEq α] (l : List α) :
    (dedupeKeepFirst l).Nodup :=
  nodup_dedupeKeepFirstAux l []

theorem dedupeKeepFirstAux_append (e : List α) [DecidableEq α] :
    ∀ (seen xs : List α), e.Nodup → (∀ a ∈ e, a ∉ seen) →
      dedupeKeepFirstAux seen (e ++ xs) = e ++ dedupeKeepFirstAux (e.reverse ++ seen) xs := by
  induction e with
  | nil => intro seen xs _ _; simp
  | cons a e' ih =>
    intro seen xs hnd hns
    have ha : a ∉ seen := hns a (List.mem_cons_self a e')
    have hsub : ∀ b ∈ e', b ∉ a :: seen := by
      intro b hb
      simp only [List.mem_cons]
      rintro (rfl | hbs)
      · exact (List.nodup_cons.mp hnd).1 hb
      · exact hns b (List.mem_cons_of_mem _ hb) hbs
    simp only [List.cons_append, dedupeKeepFirstAux]
    rw [if_neg ha, List.append_eq, ih (a :: seen) xs (List.nodup_cons.mp hnd).2 hsub]
    rw [List.reverse_cons, List.append_assoc, List.singleton_append]

theorem dedupeKeepFirstAux_nil_of_subset {α : Type} [DecidableEq α] (xs : List α) :
    ∀ seen : List α, (∀ a ∈ xs, a ∈ seen) → dedupeKeepFirstAux seen xs = [] := by
  induction xs with
  | nil => intro seen _; rfl
  | cons x xs ih =>
    intro seen hsub
    unfold dedupeKeepFirstAux
    rw [if_pos (hsub x (List.mem_cons_self x xs))]
    exact ih seen (fun a ha => hsub a (List.mem_cons_of_mem _ ha))

theorem dedupeKeepFirst_append_absorb {α : Type} [DecidableEq α] {e xs : List α}
    (hnd : e.Nodup) (hsub : ∀ a ∈ xs, a ∈ e) : dedupeKeepFirst (e ++ xs) = e := by
  unfold dedupeKeepFirst
  rw [dedupeKeepFirstAux_append e [] xs hnd (by simp)]
  rw [dedupeKeepFirstAux_nil_of_subset]
  · simp
  · intro a ha
    simp only [List.append_nil, List.mem_reverse]
    exact hsub a ha

theorem leadsWith_refl {α : Type} [DecidableEq α] (l : List α) : leadsWith l l = true := by
  induction l with
  | nil => rfl
  | cons a as ih => simp [leadsWith, ih]

theorem leadsWith_append {α : Type} [DecidableEq α] (sub : List α) :
    ∀ l r : List α, leadsWith sub l = true → leadsWith sub (l ++ r) = true := by
  induction sub with
  | nil => intro l r _; rfl
  | cons a as ih =>
    intro l r h
    cases l with
    | nil => exact absurd h (by simp [leadsWith])
    | cons b bs =>
      simp only [leadsWith, Bool.and_eq_true, decide_eq_true_eq] at h
      simp only [List.cons_append, leadsWith, Bool.and_eq_true, decide_eq_true_eq]
      exact ⟨h.1, ih bs r h.2⟩

theorem leadsWith_nil_iff {α : Type} [DecidableEq α] (sub : List α) :
    leadsWith sub [] = true ↔ sub = [] := by
  cases sub with
  | nil => simp [leadsWith]
  | cons a as => simp [leadsWith]

theorem containsSeq_nil_sub {α : Type} [DecidableEq α] (l : List α) :
    containsSeq ([] : List α) l = true := by
  cases l with
  | nil => rfl
  | cons c rest => simp [containsSeq, leadsWith]

theorem containsSeq_append_right {α : Type} [DecidableEq α] (sub : List α) :
    ∀ l r : List α, containsSeq sub l = true → containsSeq sub (l ++ r) = true := by
  intro l
  induction l with
  | nil =>
    intro r h
    have : sub = [] := (leadsWith_nil_iff sub).mp h
    subst this
    exact containsSeq_nil_sub r
  | cons c rest ih =>
    intro r h
    simp only [containsSeq, Bool.or_eq_true] at h
    simp only [List.cons_append, containsSeq, Bool.or_eq_true]
    rcases h with h | h
    · exact Or.inl (leadsWith_append sub _ r h)
    · exact Or.inr (ih r h)

theorem containsSeq_suffix {α : Type} [DecidableEq α] (sub : List α) :
    ∀ pre : List α, containsSeq sub (pre ++ sub) = true := by
  intro pre
  induction pre with
  | nil =>
    cases sub with
    | nil => rfl
    | cons c rest => simp [containsSeq, leadsWith_refl]
  | cons p pre' ih =>
    simp only [List.cons_append, containsSeq, Bool.or_eq_true]
    exact Or.inr ih

theorem strIncludes_refl (s : String) : strIncludes s s = true := by
  unfold strIncludes
  have := containsSeq_suffix s.data []
  simpa using this

theorem strIncludes_append_left {a : String} (b : String) {sub : String}
    (h : strIncludes a sub = true) : strIncludes (a ++ b) sub = true := by
  unfold strIncludes at h ⊢
  rw [String.data_append]
  exact containsSeq_append_right _ _ _ h

theorem strIncludes_append_suffix (a b : String) : strIncludes (a ++ b) b = true := by
  unfold strIncludes
  rw [String.data_append]
  exact containsSeq_suffix b.data a.data

theorem append_ne_empty_left {a : String} (b : String) (ha : a ≠ "") : a ++ b ≠ "" := by
  intro h
  apply ha
  have hd := congrArg String.data h
  rw [String.data_append] at hd
  exact String.ext (List.append_eq_nil.mp hd).1

theorem betterConfidence_self :
    ∀ a : Option SelectionConfidence, betterConfidence a a = a := by decide

theorem betterConfidence_comm :
    ∀ a b : Option SelectionConfidence, betterConfidence a b = betterConfidence b a := by decide

theorem betterConfidence_after :
    ∀ c i : Option SelectionConfidence,
      betterConfidence (betterConfidence c i) i = betterConfidence c i := by decide

theorem betterConfidence_absorb_again :
    ∀ c i j : Option SelectionConfidence, betterConfidence c i = c →
      betterConfidence (betterConfidence c j) i = betterConfidence c j := by decide

/-! ### Packer lemmas (C1, C2) -/

theorem mem_insertRanked {r x : RankedChunk} {l : List RankedChunk} :
    x ∈ insertRanked r l ↔ x = r ∨ x ∈ l := by
  induction l with
  | nil => simp [insertRanked]
  | cons y ys ih =>
    simp only [insertRanked]
    split
    · simp
    · simp [ih]
      tauto

theorem mem_sortRanked {x : RankedChunk} {l : List RankedChunk} :
    x ∈ sortRanked l ↔ x ∈ l := by
  induction l with
  | nil => simp [sortRanked]
  | cons y ys ih =>
    simp [sortRanked, mem_insertRanked, ih]

theorem length_insertRanked (r : RankedChunk) (l : List RankedChunk) :
    (insertRanked r l).length = l.length + 1 := by
  induction l with
  | nil => simp [insertRanked]
  | cons y ys ih =>
    simp only [insertRanked]
    split
    · simp
    · simp [ih]

theorem length_sortRanked (l : List RankedChunk) :
    (sortRanked l).length = l.length := by
  induction l with
  | nil => simp [sortRanked]
  | cons y ys ih =>
    simp [sortRanked, length_insertRanked, ih]

theorem packFoldl_counts (budgets : Budgets) (items : List RankedChunk) :
    ∀ st : PackResult,
      (items.foldl (packStep budgets) st).included.length +
        (items.foldl (packStep budgets) st).omitted.length =
      st.included.length + st.omitted.length + items.length := by
  induction items with
  | nil => intro st; simp
  | cons it its ih =>
    intro st
    rw [List.foldl_cons, ih]
    unfold packStep
    split
    · dsimp only
      simp only [List.length_append, List.length_singleton, List.length_cons,
        List.length_nil]
      omega
    · split
      · dsimp only
        simp only [List.length_append, List.length_singleton, List.length_cons,
          List.length_nil]
        omega
      · dsimp only
        simp only [List.length_append, List.length_singleton, List.length_cons,
          List.length_nil]
        omega

theorem packFoldl_invariant (budgets : Budgets) (hsh : budgets.soft ≤ budgets.hard)
    (items : List RankedChunk) (hitems : ∀ it ∈ items, it.tokens = tokenCost it.entry) :
    ∀ st : PackResult,
      st.usedTokens = (st.included.map tokenCost).sum →
      st.usedTokens ≤ budgets.hard →
      (∀ i, (hi : i < st.included.length) →
        budgets.soft < ((st.included.take (i + 1)).map tokenCost).sum →
        canExceedSoftBudget (st.included[i]).meta = true) →
      (items.foldl (packStep budgets) st).usedTokens =
          ((items.foldl (packStep budgets) st).included.map tokenCost).sum ∧
      (items.foldl (packStep budgets) st).usedTokens ≤ budgets.hard ∧
      (∀ i, (hi : i < (items.foldl (packStep budgets) st).included.length) →
        budgets.soft <
          (((items.foldl (packStep budgets) st).included.take (i + 1)).map tokenCost).sum →
        canExceedSoftBudget ((items.foldl (packStep budgets) st).included[i]).meta = true) := by
  induction items with
  | nil =>
    intro st h1 h2 h3
    exact ⟨h1, h2, h3⟩
  | cons it its ih =>
    intro st h1 h2 h3
    have htok : it.tokens = tokenCost it.entry := hitems it (by simp)
    have hits : ∀ x ∈ its, x.tokens = tokenCost x.entry :=
      fun x hx => hitems x (by simp [hx])
    rw [List.foldl_cons]
    -- establish the invariant for the state after one step
    have hstep :
        (packStep budgets st it).usedTokens =
            ((packStep budgets st it).included.map tokenCost).sum ∧
        (packStep budgets st it).usedTokens ≤ budgets.hard ∧
        (∀ i, (hi : i < (packStep budgets st it).included.length) →
          budgets.soft < (((packStep budgets st it).included.take (i + 1)).map tokenCost).sum →
          canExceedSoftBudget ((packStep budgets st it).included[i]).meta = true) := by
      unfold packStep
      split
      · rename_i hsoft
        refine ⟨?_, le_trans hsoft hsh, ?_⟩
        · simp [h1, htok]
        · intro i hi hgt
          simp only [List.length_append, List.length_singleton] at hi
          rcases Nat.lt_or_ge i st.included.length with hlt | hge
          · rw [List.getElem_append_left hlt]
            rw [List.take_append_of_le_length (by omega)] at hgt
            exact h3 i hlt hgt
          · have hieq : i = st.included.length := by omega
            subst hieq
            rw [List.take_of_length_le (by simp)] at hgt
            have : (List.map tokenCost (st.included ++ [it.entry])).sum =
                (st.included.map tokenCost).sum + tokenCost it.entry := by
              simp
            rw [this, ← h1, ← htok] at hgt
            omega
      · rename_i hstrong
        split
        · rename_i hcond
          refine ⟨?_, hcond.1, ?_⟩
          · simp [h1, htok]
          · intro i hi hgt
            simp only [List.length_append, List.length_singleton] at hi
            rcases Nat.lt_or_ge i st.included.length with hlt | hge
            · rw [List.getElem_append_left hlt]
              rw [List.take_append_of_le_length (by omega)] at hgt
              exact h3 i hlt hgt
            · have hieq : i = st.included.length := by omega
              subst hieq
              have : (st.included ++ [it.entry])[st.included.length] = it.entry := by
                simp
              rw [this]
              exact hcond.2
        · exact ⟨h1, h2, h3⟩
    exact ih hits _ hstep.1 hstep.2.1 hstep.2.2

theorem sumEstimated_le_mapped_tokenCost (l : List ReadSelectionChunk) :
    sumEstimatedTokens l ≤ (l.map tokenCost).sum := by
  induction l with
  | nil => simp [sumEstimatedTokens]
  | cons x xs ih =>
    simp only [sumEstimatedTokens, List.map_cons, List.sum_cons] at *
    have : x.meta.estimatedTokens ≤ tokenCost x := Nat.le_max_right 1 _
    omega

theorem ranked_tokens_eq (entries : List ReadSelectionChunk) :
    ∀ it ∈ sortRanked (entries.map rankChunk), it.tokens = tokenCost it.entry := by
  intro it hmem
  rw [mem_sortRanked] at hmem
  rw [List.mem_map] at hmem
  obtain ⟨e, _, rfl⟩ := hmem
  rfl

/-- C1 (amended): for every candidate list and every budget pair with
`soft ≤ hard` (every pair `getQueryScaledBudgets` produces), the chunks
included by `packSelectionChunks` satisfy the invariant: their estimated
tokens sum to at most `hard`, and every included chunk whose acceptance
pushed the running packer total past `soft` independently satisfies the
"strong" predicate `canExceedSoftBudget`; moreover, whenever packing
accepted at least one chunk, the force-accept step of `execute` is the
identity, so the invariant extends to the final output in that case.  (The
claim's unrestricted form, covering the force-accept step even when
packing accepted nothing, is refuted by
`c1_counterexample_force_accept_exceeds_hard`.) -/
theorem c1_amended_pack_budget_invariant (entries : List ReadSelectionChunk)
    (budgets : Budgets) (hsh : budgets.soft ≤ budgets.hard) :
    sumEstimatedTokens (packSelectionChunks entries budgets).included ≤ budgets.hard ∧
    (∀ i, (hi : i < (packSelectionChunks entries budgets).included.length) →
      budgets.soft <
        (((packSelectionChunks entries budgets).included.take (i + 1)).map tokenCost).sum →
      canExceedSoftBudget ((packSelectionChunks entries budgets).included[i]).meta = true) ∧
    ((packSelectionChunks entries budgets).included ≠ [] →
      forceIncludeFirstOmitted (packSelectionChunks entries budgets) =
        packSelectionChunks entries budgets) := by
  have hinv := packFoldl_invariant budgets hsh (sortRanked (entries.map rankChunk))
    (ranked_tokens_eq entries)
    { included := [], omitted := [], usedTokens := 0, usedLoc := 0 }
    (by simp) (by simp) (by intro i hi; simp at hi)
  refine ⟨?_, ?_, ?_⟩
  · calc sumEstimatedTokens (packSelectionChunks entries budgets).included
        ≤ ((packSelectionChunks entries budgets).included.map tokenCost).sum :=
          sumEstimated_le_mapped_tokenCost _
      _ = (packSelectionChunks entries budgets).usedTokens := (hinv.1).symm
      _ ≤ budgets.hard := hinv.2.1
  · exact hinv.2.2
  · intro hne
    unfold forceIncludeFirstOmitted
    rw [if_neg]
    rintro ⟨h0, _⟩
    exact hne (List.eq_nil_of_length_eq_zero h0)

/-- Witness for C1 (amended) at a singleton candidate list and the
two-query budgets. -/
theorem c1_amended_pack_budget_invariant_witness :
    (getQueryScaledBudgets 2).soft ≤ (getQueryScaledBudgets 2).hard ∧
    (sumEstimatedTokens
        (packSelectionChunks [oversizedChunk] (getQueryScaledBudgets 2)).included ≤
      (getQueryScaledBudgets 2).hard ∧
    (∀ i, (hi : i <
        (packSelectionChunks [oversizedChunk] (getQueryScaledBudgets 2)).included.length) →
      (getQueryScaledBudgets 2).soft <
        (((packSelectionChunks [oversizedChunk] (getQueryScaledBudgets 2)).included.take
          (i + 1)).map tokenCost).sum →
      canExceedSoftBudget
        ((packSelectionChunks [oversizedChunk] (getQueryScaledBudgets 2)).included[i]).meta
        = true) ∧
    ((packSelectionChunks [oversizedChunk] (getQueryScaledBudgets 2)).included ≠ [] →
      forceIncludeFirstOmitted (packSelectionChunks [oversizedChunk] (getQueryScaledBudgets 2)) =
        packSelectionChunks [oversizedChunk] (getQueryScaledBudgets 2))) :=
  ⟨by decide,
    c1_amended_pack_budget_invariant [oversizedChunk] (getQueryScaledBudgets 2) (by decide)⟩

/-- Counterexample for C1 as stated: with a single query
(`soft = hard = 18000`) and a single non-"strong" candidate chunk of
20000 estimated tokens, packing rejects the chunk but the force-accept
step of `execute` then includes it, so the final included token sum
exceeds the hard ceiling. -/
theorem c1_counterexample_force_accept_exceeds_hard :
    ¬ (sumEstimatedTokens
        (forceIncludeFirstOmitted
          (packSelectionChunks [oversizedChunk] (getQueryScaledBudgets 1))).included ≤
      (getQueryScaledBudgets 1).hard) := by
  decide

/-- C2: if the candidate set is non-empty, the included set after the
packing walk plus the force-accept step is non-empty — the output always
contains at least one code chunk when candidates exist. -/
theorem c2_nonempty_candidates_nonempty_included (entries : List ReadSelectionChunk)
    (budgets : Budgets) (hne : entries ≠ []) :
    (forceIncludeFirstOmitted (packSelectionChunks entries budgets)).included ≠ [] := by
  have hentries : 0 < entries.length := by
    cases entries with
    | nil => exact absurd rfl hne
    | cons x xs => simp
  have hcounts : (packSelectionChunks entries budgets).included.length +
      (packSelectionChunks entries budgets).omitted.length = entries.length := by
    unfold packSelectionChunks
    rw [packFoldl_counts budgets (sortRanked (entries.map rankChunk))
      { included := [], omitted := [], usedTokens := 0, usedLoc := 0 }]
    rw [length_sortRanked, List.length_map]
    simp
  by_cases hinc : (packSelectionChunks entries budgets).included = []
  · have hom : 0 < (packSelectionChunks entries budgets).omitted.length := by
      rw [hinc] at hcounts
      simp only [List.length_nil, Nat.zero_add] at hcounts
      omega
    unfold forceIncludeFirstOmitted
    rw [if_pos ⟨by rw [hinc]; rfl, hom⟩]
    intro habs
    have hl := congrArg List.length habs
    simp only [List.length_append, List.length_take, List.length_nil] at hl
    omega
  · unfold forceIncludeFirstOmitted
    split
    · simp_all
    · exact hinc

/-- Witness for C2 at a singleton candidate list. -/
theorem c2_nonempty_candidates_nonempty_included_witness :
    ([oversizedChunk] : List ReadSelectionChunk) ≠ [] ∧
    (forceIncludeFirstOmitted
      (packSelectionChunks [oversizedChunk] (getQueryScaledBudgets 1))).included ≠ [] :=
  ⟨by simp,
    c2_nonempty_candidates_nonempty_included [oversizedChunk] (getQueryScaledBudgets 1)
      (by simp)⟩


/-! ### Merge-loop lemmas and C4/C5 -/

theorem mem_dedupeRanges {x : Range} {l : List Range} : x ∈ dedupeRanges l ↔ x ∈ l :=
  mem_dedupeKeepFirst

theorem mem_addQueryOnce {x q : String} {qs : List String} :
    x ∈ addQueryOnce qs q ↔ x ∈ qs ∨ x = q := by
  unfold addQueryOnce
  split
  · rename_i h
    constructor
    · exact Or.inl
    · rintro (hx | rfl)
      · exact hx
      · exact h
  · rw [List.mem_append, List.mem_singleton]

theorem absorbs_mergeInto_self (e : MergedEntry) (q : String) (sel : FileSelection) :
    Absorbs (mergeInto e q sel) q sel := by
  refine ⟨?_, ?_, ?_, ?_, ?_⟩
  · show q ∈ addQueryOnce e.queries q
    rw [mem_addQueryOnce]
    exact Or.inr rfl
  · intro r hr
    show r ∈ (if sel.ranges ≠ [] then dedupeRanges (e.ranges ++ sel.ranges) else e.ranges)
    rw [if_pos (List.ne_nil_of_mem hr), mem_dedupeRanges]
    exact List.mem_append_right _ hr
  · intro x hx
    show x ∈ (if sel.symbols ≠ [] then dedupeKeepFirst (e.symbols ++ sel.symbols) else e.symbols)
    rw [if_pos (List.ne_nil_of_mem hx), mem_dedupeKeepFirst]
    exact List.mem_append_right _ hx
  · show betterConfidence (betterConfidence e.confidence sel.confidence) sel.confidence =
      betterConfidence e.confidence sel.confidence
    exact betterConfidence_after _ _
  · intro hne
    show mergeReason e.reason sel.reason ≠ "" ∧
      strIncludes (mergeReason e.reason sel.reason) sel.reason = true
    unfold mergeReason
    split
    · split
      · rename_i hcur
        exact ⟨append_ne_empty_left _ (append_ne_empty_left _ hcur),
          strIncludes_append_suffix _ _⟩
      · exact ⟨hne, strIncludes_refl _⟩
    · rename_i hcond
      push_neg at hcond
      exact hcond hne

theorem absorbs_mergeInto_mono (e : MergedEntry) (q0 : String) (sel0 : FileSelection)
    (q : String) (sel : FileSelection) (h : Absorbs e q0 sel0) :
    Absorbs (mergeInto e q sel) q0 sel0 := by
  obtain ⟨hq, hr, hs, hc, hreason⟩ := h
  refine ⟨?_, ?_, ?_, ?_, ?_⟩
  · show q0 ∈ addQueryOnce e.queries q
    rw [mem_addQueryOnce]
    exact Or.inl hq
  · intro r hrr
    show r ∈ (if sel.ranges ≠ [] then dedupeRanges (e.ranges ++ sel.ranges) else e.ranges)
    split
    · rw [mem_dedupeRanges]
      exact List.mem_append_left _ (hr r hrr)
    · exact hr r hrr
  · intro x hx
    show x ∈ (if sel.symbols ≠ [] then dedupeKeepFirst (e.symbols ++ sel.symbols) else e.symbols)
    split
    · rw [mem_dedupeKeepFirst]
      exact List.mem_append_left _ (hs x hx)
    · exact hs x hx
  · show betterConfidence (betterConfidence e.confidence sel.confidence) sel0.confidence =
      betterConfidence e.confidence sel.confidence
    exact betterConfidence_absorb_again _ _ _ hc
  · intro hne
    obtain ⟨hcur, hinc⟩ := hreason hne
    show mergeReason e.reason sel.reason ≠ "" ∧
      strIncludes (mergeReason e.reason sel.reason) sel0.reason = true
    unfold mergeReason
    by_cases hc2 : sel.reason ≠ "" ∧ ¬(e.reason ≠ "" ∧ strIncludes e.reason sel.reason = true)
    · rw [if_pos hc2, if_pos hcur]
      exact ⟨append_ne_empty_left _ (append_ne_empty_left _ hcur),
        strIncludes_append_left _ (strIncludes_append_left _ hinc)⟩
    · rw [if_neg hc2]
      exact ⟨hcur, hinc⟩

theorem entryWF_mergeInto (e : MergedEntry) (q : String) (sel : FileSelection)
    (h : EntryWF e) : EntryWF (mergeInto e q sel) := by
  obtain ⟨h1, h2⟩ := h
  constructor
  · show (if sel.ranges ≠ [] then dedupeRanges (e.ranges ++ sel.ranges) else e.ranges).Nodup
    split
    · exact nodup_dedupeKeepFirst _
    · exact h1
  · show (if sel.symbols ≠ [] then
        dedupeKeepFirst (e.symbols ++ sel.symbols) else e.symbols).Nodup
    split
    · exact nodup_dedupeKeepFirst _
    · exact h2

theorem mergeInto_eq_of_absorbs (e : MergedEntry) (q : String) (sel : FileSelection)
    (hwf : EntryWF e) (habs : Absorbs e q sel) : mergeInto e q sel = e := by
  obtain ⟨hq, hr, hs, hc, hreason⟩ := habs
  obtain ⟨h1, h2⟩ := hwf
  cases e with
  | mk ranges symbols reason confidence queries =>
    unfold mergeInto
    simp only [MergedEntry.mk.injEq]
    refine ⟨?_, ?_, ?_, hc, ?_⟩
    · split
      · exact dedupeKeepFirst_append_absorb h1 hr
      · rfl
    · split
      · exact dedupeKeepFirst_append_absorb h2 hs
      · rfl
    · unfold mergeReason
      rw [if_neg]
      rintro ⟨hne, hnot⟩
      exact hnot (hreason hne)
    · unfold addQueryOnce
      rw [if_pos hq]

theorem findEntry_mem {m : List (String × MergedEntry)} {k : String} {e : MergedEntry}
    (h : findEntry m k = some e) : (k, e) ∈ m := by
  induction m with
  | nil => simp [findEntry] at h
  | cons p rest ih =>
    obtain ⟨f, v⟩ := p
    unfold findEntry at h
    split at h
    · rename_i hf
      obtain rfl := Option.some.injEq .. ▸ h
      subst hf
      exact List.mem_cons_self _ _
    · exact List.mem_cons_of_mem _ (ih h)

theorem findEntry_append_of_none {m : List (String × MergedEntry)} {k : String}
    (v : MergedEntry) (h : findEntry m k = none) :
    findEntry (m ++ [(k, v)]) k = some v := by
  induction m with
  | nil => simp [findEntry]
  | cons p rest ih =>
    obtain ⟨f, w⟩ := p
    unfold findEntry at h ⊢
    split at h
    · exact absurd h (by simp)
    · rename_i hf
      rw [List.cons_append]
      show (if f = k then some w else findEntry (rest ++ [(k, v)]) k) = some v
      rw [if_neg hf]
      exact ih h

theorem findEntry_append_of_some {m : List (String × MergedEntry)} {k : String}
    {e : MergedEntry} (l : List (String × MergedEntry)) (h : findEntry m k = some e) :
    findEntry (m ++ l) k = some e := by
  induction m with
  | nil => simp [findEntry] at h
  | cons p rest ih =>
    obtain ⟨f, w⟩ := p
    unfold findEntry at h
    rw [List.cons_append]
    show (if f = k then some w else findEntry (rest ++ l) k) = some e
    split at h
    · rename_i hf
      rw [if_pos hf]
      exact h
    · rename_i hf
      rw [if_neg hf]
      exact ih h

theorem findEntry_updateEntry_self {m : List (String × MergedEntry)} {k : String}
    {e : MergedEntry} (v : MergedEntry) (h : findEntry m k = some e) :
    findEntry (updateEntry m k v) k = some v := by
  induction m with
  | nil => simp [findEntry] at h
  | cons p rest ih =>
    obtain ⟨f, w⟩ := p
    unfold findEntry at h
    unfold updateEntry
    split at h
    · rename_i hf
      rw [if_pos hf]
      show (if f = k then some v else findEntry rest k) = some v
      rw [if_pos hf]
    · rename_i hf
      rw [if_neg hf]
      show (if f = k then some w else findEntry (updateEntry rest k v) k) = some v
      rw [if_neg hf]
      exact ih h

theorem findEntry_updateEntry_other {m : List (String × MergedEntry)} {k f0 : String}
    (v : MergedEntry) (h : f0 ≠ k) :
    findEntry (updateEntry m k v) f0 = findEntry m f0 := by
  induction m with
  | nil => rfl
  | cons p rest ih =>
    obtain ⟨f, w⟩ := p
    unfold updateEntry
    split
    · rename_i hf
      show (if f = f0 then some v else findEntry rest f0) =
        (if f = f0 then some w else findEntry rest f0)
      rw [if_neg, if_neg]
      · intro hcontr
        exact h (hcontr ▸ hf)
      · intro hcontr
        exact h (hcontr ▸ hf)
    · show (if f = f0 then some w else findEntry (updateEntry rest k v) f0) =
        (if f = f0 then some w else findEntry rest f0)
      split
      · rfl
      · exact ih

theorem updateEntry_eq_of_same {m : List (String × MergedEntry)} {k : String}
    {e : MergedEntry} (h : findEntry m k = some e) : updateEntry m k e = m := by
  induction m with
  | nil => rfl
  | cons p rest ih =>
    obtain ⟨f, w⟩ := p
    unfold findEntry at h
    unfold updateEntry
    split at h
    · rename_i hf
      rw [if_pos hf]
      obtain rfl := Option.some.injEq .. ▸ h
      rfl
    · rename_i hf
      rw [if_neg hf, ih h]

theorem mem_updateEntry {m : List (String × MergedEntry)} {k : String} {v : MergedEntry}
    (p : String × MergedEntry) (h : p ∈ updateEntry m k v) : p ∈ m ∨ p = (k, v) := by
  induction m with
  | nil => simp [updateEntry] at h
  | cons hd rest ih =>
    obtain ⟨f, w⟩ := hd
    unfold updateEntry at h
    split at h
    · rename_i hf
      rcases List.mem_cons.mp h with hh | hh
      · subst hf
        exact Or.inr hh
      · exact Or.inl (List.mem_cons_of_mem _ hh)
    · rcases List.mem_cons.mp h with hh | hh
      · exact Or.inl (hh ▸ List.mem_cons_self _ _)
      · rcases ih hh with hm | hv
        · exact Or.inl (List.mem_cons_of_mem _ hm)
        · exact Or.inr hv

theorem mergeStep_wf (m : List (String × MergedEntry)) (q : String) (sel : FileSelection)
    (hwf : ∀ p ∈ m, EntryWF p.2) : ∀ p ∈ mergeStep m q sel, EntryWF p.2 := by
  intro p hp
  rcases hfind : findEntry m sel.file with _ | e
  · have heq : mergeStep m q sel = m ++ [(sel.file, mergeInto (initEntry sel) q sel)] := by
      unfold mergeStep
      rw [hfind]
    rw [heq] at hp
    rcases List.mem_append.mp hp with h | h
    · exact hwf p h
    · rw [List.mem_singleton.mp h]
      exact entryWF_mergeInto _ _ _ ⟨List.nodup_nil, List.nodup_nil⟩
  · have heq : mergeStep m q sel = updateEntry m sel.file (mergeInto e q sel) := by
      unfold mergeStep
      rw [hfind]
    rw [heq] at hp
    rcases mem_updateEntry p hp with h | h
    · exact hwf p h
    · rw [h]
      exact entryWF_mergeInto _ _ _ (hwf (sel.file, e) (findEntry_mem hfind))

theorem mergeStep_progress (m : List (String × MergedEntry)) (q : String)
    (sel : FileSelection) :
    ∃ en, findEntry (mergeStep m q sel) sel.file = some en ∧ Absorbs en q sel := by
  rcases hfind : findEntry m sel.file with _ | e
  · refine ⟨mergeInto (initEntry sel) q sel, ?_, absorbs_mergeInto_self _ _ _⟩
    have heq : mergeStep m q sel = m ++ [(sel.file, mergeInto (initEntry sel) q sel)] := by
      unfold mergeStep
      rw [hfind]
    rw [heq]
    exact findEntry_append_of_none _ hfind
  · refine ⟨mergeInto e q sel, ?_, absorbs_mergeInto_self _ _ _⟩
    have heq : mergeStep m q sel = updateEntry m sel.file (mergeInto e q sel) := by
      unfold mergeStep
      rw [hfind]
    rw [heq]
    exact findEntry_updateEntry_self _ hfind

theorem mergeStep_preserves_found (m : List (String × MergedEntry)) (q : String)
    (sel : FileSelection) (q0 : String) (sel0 : FileSelection)
    (h : ∃ e0, findEntry m sel0.file = some e0 ∧ Absorbs e0 q0 sel0) :
    ∃ en, findEntry (mergeStep m q sel) sel0.file = some en ∧ Absorbs en q0 sel0 := by
  obtain ⟨e0, hf, habs⟩ := h
  rcases hfind : findEntry m sel.file with _ | e
  · have heq : mergeStep m q sel = m ++ [(sel.file, mergeInto (initEntry sel) q sel)] := by
      unfold mergeStep
      rw [hfind]
    refine ⟨e0, ?_, habs⟩
    rw [heq]
    exact findEntry_append_of_some _ hf
  · have heq : mergeStep m q sel = updateEntry m sel.file (mergeInto e q sel) := by
      unfold mergeStep
      rw [hfind]
    by_cases hk : sel0.file = sel.file
    · have he : e0 = e := by
        rw [hk] at hf
        rw [hfind] at hf
        exact (Option.some.injEq .. ▸ hf).symm
      refine ⟨mergeInto e q sel, ?_, ?_⟩
      · rw [heq, hk]
        exact findEntry_updateEntry_self _ hfind
      · exact absorbs_mergeInto_mono _ _ _ _ _ (he ▸ habs)
    · refine ⟨e0, ?_, habs⟩
      rw [heq, findEntry_updateEntry_other _ hk]
      exact hf

theorem mergeFoldl_invariant (contribs : List (String × FileSelection)) :
    ∀ m : List (String × MergedEntry), (∀ p ∈ m, EntryWF p.2) →
      (∀ p ∈ contribs.foldl (fun m p => mergeStep m p.1 p.2) m, EntryWF p.2) ∧
      (∀ (q0 : String) (sel0 : FileSelection),
        ((∃ e0, findEntry m sel0.file = some e0 ∧ Absorbs e0 q0 sel0) ∨
          (q0, sel0) ∈ contribs) →
        ∃ en, findEntry (contribs.foldl (fun m p => mergeStep m p.1 p.2) m) sel0.file =
          some en ∧ Absorbs en q0 sel0) := by
  induction contribs with
  | nil =>
    intro m hwf
    refine ⟨hwf, ?_⟩
    intro q0 sel0 h
    rcases h with h | h
    · simpa using h
    · simp at h
  | cons p rest ih =>
    intro m hwf
    obtain ⟨q, sel⟩ := p
    have hwfstep := mergeStep_wf m q sel hwf
    have hih := ih (mergeStep m q sel) hwfstep
    rw [List.foldl_cons]
    refine ⟨hih.1, ?_⟩
    intro q0 sel0 h
    rcases h with h | h
    · exact hih.2 q0 sel0 (Or.inl (mergeStep_preserves_found m q sel q0 sel0 h))
    · rcases List.mem_cons.mp h with heq | hmem
      · injection heq with h1 h2
        subst h1
        subst h2
        exact hih.2 q0 sel0 (Or.inl (mergeStep_progress m q0 sel0))
      · exact hih.2 q0 sel0 (Or.inr hmem)

theorem mergeFoldl_noop (contribs : List (String × FileSelection)) :
    ∀ m : List (String × MergedEntry), (∀ p ∈ m, EntryWF p.2) →
      (∀ p ∈ contribs, ∃ en, findEntry m p.2.file = some en ∧ Absorbs en p.1 p.2) →
      contribs.foldl (fun m p => mergeStep m p.1 p.2) m = m := by
  induction contribs with
  | nil => intro m _ _; rfl
  | cons p rest ih =>
    intro m hwf habs
    obtain ⟨q, sel⟩ := p
    obtain ⟨en, hf, ha⟩ := habs (q, sel) (List.mem_cons_self _ _)
    have hwfe : EntryWF en := hwf (sel.file, en) (findEntry_mem hf)
    have hstep : mergeStep m q sel = m := by
      unfold mergeStep
      rw [hf]
      show updateEntry m sel.file (mergeInto en q sel) = m
      rw [mergeInto_eq_of_absorbs en q sel hwfe ha]
      exact updateEntry_eq_of_same hf
    rw [List.foldl_cons]
    have hstep2 : mergeStep m (q, sel).1 (q, sel).2 = m := hstep
    rw [hstep2]
    exact ih m hwf (fun p hp => habs p (List.mem_cons_of_mem _ hp))

/-- C4: merging a (normalized) selection list with itself is a no-op —
running `execute`'s per-file merge loop over the contribution list twice
yields, for every file, exactly the same merged ranges, symbols,
confidence, reason and query set (hence `queryCount`) as running it
once. -/
theorem c4_merge_idempotent (contribs : List (String × FileSelection)) :
    mergeAll (contribs ++ contribs) = mergeAll contribs := by
  unfold mergeAll
  rw [List.foldl_append]
  have hA := mergeFoldl_invariant contribs [] (by intro p hp; simp at hp)
  exact mergeFoldl_noop contribs _ hA.1 (fun p hp => hA.2 p.1 p.2 (Or.inr hp))


theorem mem_mergeInto_ranges (e : MergedEntry) (q : String) (sel : FileSelection)
    (r : Range) : r ∈ (mergeInto e q sel).ranges ↔ r ∈ e.ranges ∨ r ∈ sel.ranges := by
  show r ∈ (if sel.ranges ≠ [] then dedupeRanges (e.ranges ++ sel.ranges) else e.ranges) ↔ _
  split
  · rw [mem_dedupeRanges, List.mem_append]
  · rename_i h
    rw [not_not] at h
    rw [h]
    simp

theorem mem_mergeInto_symbols (e : MergedEntry) (q : String) (sel : FileSelection)
    (x : String) : x ∈ (mergeInto e q sel).symbols ↔ x ∈ e.symbols ∨ x ∈ sel.symbols := by
  show x ∈ (if sel.symbols ≠ [] then
    dedupeKeepFirst (e.symbols ++ sel.symbols) else e.symbols) ↔ _
  split
  · rw [mem_dedupeKeepFirst, List.mem_append]
  · rename_i h
    rw [not_not] at h
    rw [h]
    simp

theorem mem_mergeInto_queries (e : MergedEntry) (q : String) (sel : FileSelection)
    (x : String) : x ∈ (mergeInto e q sel).queries ↔ x ∈ e.queries ∨ x = q := by
  show x ∈ addQueryOnce e.queries q ↔ _
  exact mem_addQueryOnce

theorem mergeReason_self (s : String) : mergeReason s s = s := by
  unfold mergeReason
  rw [if_neg]
  rintro ⟨h1, h2⟩
  exact h2 ⟨h1, strIncludes_refl s⟩

theorem mergeReason_includes (cur inc : String) (hcur : cur ≠ "") (hinc : inc ≠ "") :
    strIncludes (mergeReason cur inc) cur = true ∧
    strIncludes (mergeReason cur inc) inc = true := by
  unfold mergeReason
  by_cases hc2 : inc ≠ "" ∧ ¬(cur ≠ "" ∧ strIncludes cur inc = true)
  · rw [if_pos hc2, if_pos hcur]
    exact ⟨strIncludes_append_left _ (strIncludes_append_left _ (strIncludes_refl cur)),
      strIncludes_append_suffix _ _⟩
  · rw [if_neg hc2]
    push_neg at hc2
    exact ⟨strIncludes_refl cur, (hc2 hinc).2⟩

/-- Counterexample for C5 as stated: two contributions for the same file
with distinct reasons merge to different `MergedSelection`s depending on
the order (the range lists and the concatenated reason text differ:
`"alpha; beta"` vs `"beta; alpha"`), so the merge is not commutative on
the nose. -/
theorem c5_counterexample_merge_not_commutative :
    mergeTwo "q1" selAlpha "q2" selBeta ≠ mergeTwo "q2" selBeta "q1" selAlpha := by
  decide

/-- C5 (amended): merging two same-file contributions in either order
yields MergedSelections that agree up to list order: identical confidence
(`betterConfidence` is commutative and idempotent), the same set of
unioned ranges, the same set of unioned symbols, the same query set and
`queryCount`, and a reason text that in both orders contains each
contribution's reason; but the concrete reason string (and the order of
the unioned lists) depends on the merge order, so the results are not
literally identical (see the counterexample). -/
theorem c5_amended_merge_commutative_up_to_order (qA qB : String) (A B : FileSelection)
    (hA : A.reason ≠ "") (hB : B.reason ≠ "") :
    (mergeTwo qA A qB B).confidence = (mergeTwo qB B qA A).confidence ∧
    (mergeTwo qA A qB B).queries.length = (mergeTwo qB B qA A).queries.length ∧
    (∀ r : Range, r ∈ (mergeTwo qA A qB B).ranges ↔ r ∈ (mergeTwo qB B qA A).ranges) ∧
    (∀ x : String, x ∈ (mergeTwo qA A qB B).symbols ↔ x ∈ (mergeTwo qB B qA A).symbols) ∧
    (∀ x : String, x ∈ (mergeTwo qA A qB B).queries ↔ x ∈ (mergeTwo qB B qA A).queries) ∧
    strIncludes (mergeTwo qA A qB B).reason A.reason = true ∧
    strIncludes (mergeTwo qA A qB B).reason B.reason = true ∧
    strIncludes (mergeTwo qB B qA A).reason A.reason = true ∧
    strIncludes (mergeTwo qB B qA A).reason B.reason = true := by
  have hABreason : (mergeTwo qA A qB B).reason = mergeReason A.reason B.reason := by
    show mergeReason (mergeReason A.reason A.reason) B.reason = _
    rw [mergeReason_self]
  have hBAreason : (mergeTwo qB B qA A).reason = mergeReason B.reason A.reason := by
    show mergeReason (mergeReason B.reason B.reason) A.reason = _
    rw [mergeReason_self]
  refine ⟨?_, ?_, ?_, ?_, ?_, ?_, ?_, ?_, ?_⟩
  · show betterConfidence (betterConfidence A.confidence A.confidence) B.confidence =
      betterConfidence (betterConfidence B.confidence B.confidence) A.confidence
    rw [betterConfidence_self, betterConfidence_self, betterConfidence_comm]
  · show (addQueryOnce (addQueryOnce [] qA) qB).length =
      (addQueryOnce (addQueryOnce [] qB) qA).length
    by_cases h : qA = qB
    · subst h
      rfl
    · simp [addQueryOnce, h, Ne.symm h]
  · intro r
    rw [show mergeTwo qA A qB B = mergeInto (mergeInto (initEntry A) qA A) qB B from rfl]
    rw [show mergeTwo qB B qA A = mergeInto (mergeInto (initEntry B) qB B) qA A from rfl]
    rw [mem_mergeInto_ranges, mem_mergeInto_ranges, mem_mergeInto_ranges, mem_mergeInto_ranges]
    show (r ∈ ([] : List Range) ∨ r ∈ A.ranges) ∨ r ∈ B.ranges ↔
      (r ∈ ([] : List Range) ∨ r ∈ B.ranges) ∨ r ∈ A.ranges
    simp only [List.not_mem_nil, false_or]
    tauto
  · intro x
    rw [show mergeTwo qA A qB B = mergeInto (mergeInto (initEntry A) qA A) qB B from rfl]
    rw [show mergeTwo qB B qA A = mergeInto (mergeInto (initEntry B) qB B) qA A from rfl]
    rw [mem_mergeInto_symbols, mem_mergeInto_symbols, mem_mergeInto_symbols,
      mem_mergeInto_symbols]
    show (x ∈ ([] : List String) ∨ x ∈ A.symbols) ∨ x ∈ B.symbols ↔
      (x ∈ ([] : List String) ∨ x ∈ B.symbols) ∨ x ∈ A.symbols
    simp only [List.not_mem_nil, false_or]
    tauto
  · intro x
    rw [show mergeTwo qA A qB B = mergeInto (mergeInto (initEntry A) qA A) qB B from rfl]
    rw [show mergeTwo qB B qA A = mergeInto (mergeInto (initEntry B) qB B) qA A from rfl]
    rw [mem_mergeInto_queries, mem_mergeInto_queries, mem_mergeInto_queries,
      mem_mergeInto_queries]
    show (x ∈ ([] : List String) ∨ x = qA) ∨ x = qB ↔
      (x ∈ ([] : List String) ∨ x = qB) ∨ x = qA
    simp only [List.not_mem_nil, false_or]
    tauto
  · rw [hABreason]
    exact (mergeReason_includes A.reason B.reason hA hB).1
  · rw [hABreason]
    exact (mergeReason_includes A.reason B.reason hA hB).2
  · rw [hBAreason]
    exact (mergeReason_includes B.reason A.reason hB hA).2
  · rw [hBAreason]
    exact (mergeReason_includes B.reason A.reason hB hA).1

/-- Witness for C5 (amended) at the two concrete selections of the
counterexample. -/
theorem c5_amended_merge_commutative_up_to_order_witness :
    selAlpha.reason ≠ "" ∧ selBeta.reason ≠ "" ∧
    ((mergeTwo "q1" selAlpha "q2" selBeta).confidence =
        (mergeTwo "q2" selBeta "q1" selAlpha).confidence ∧
      (mergeTwo "q1" selAlpha "q2" selBeta).queries.length =
        (mergeTwo "q2" selBeta "q1" selAlpha).queries.length ∧
      (∀ r : Range, r ∈ (mergeTwo "q1" selAlpha "q2" selBeta).ranges ↔
        r ∈ (mergeTwo "q2" selBeta "q1" selAlpha).ranges) ∧
      (∀ x : String, x ∈ (mergeTwo "q1" selAlpha "q2" selBeta).symbols ↔
        x ∈ (mergeTwo "q2" selBeta "q1" selAlpha).symbols) ∧
      (∀ x : String, x ∈ (mergeTwo "q1" selAlpha "q2" selBeta).queries ↔
        x ∈ (mergeTwo "q2" selBeta "q1" selAlpha).queries) ∧
      strIncludes (mergeTwo "q1" selAlpha "q2" selBeta).reason selAlpha.reason = true ∧
      strIncludes (mergeTwo "q1" selAlpha "q2" selBeta).reason selBeta.reason = true ∧
      strIncludes (mergeTwo "q2" selBeta "q1" selAlpha).reason selAlpha.reason = true ∧
      strIncludes (mergeTwo "q2" selBeta "q1" selAlpha).reason selBeta.reason = true) :=
  ⟨by decide, by decide,
    c5_amended_merge_commutative_up_to_order "q1" "q2" selAlpha selBeta
      (by decide) (by decide)⟩


/-! ### Retry-loop lemmas and C6 -/

theorem getTransientBackoff_eval_lt (st : RetryState) (now : Int)
    (h : now - retryWindowStart st now < RETRY_WALL_TIME_MS) :
    getTransientBackoff st now =
      ({ st with
          transientRetryCount := st.transientRetryCount + 1
          transientRetryStart := retryWindowStart st now },
        min (INITIAL_BACKOFF_MS * 2 ^ st.transientRetryCount)
          (RETRY_WALL_TIME_MS - (now - retryWindowStart st now))) := by
  unfold retryWindowStart at h ⊢
  simp only [getTransientBackoff]
  rw [if_neg (not_le.mpr h)]

theorem getTransientBackoff_eval_ge (st : RetryState) (now : Int)
    (h : RETRY_WALL_TIME_MS ≤ now - retryWindowStart st now) :
    getTransientBackoff st now =
      ({ st with transientRetryStart := retryWindowStart st now }, -1) := by
  unfold retryWindowStart at h ⊢
  simp only [getTransientBackoff]
  rw [if_pos h]

theorem backoffDelay_nonneg (k : Nat) (elapsed : Int) (h : elapsed < RETRY_WALL_TIME_MS) :
    0 ≤ min (INITIAL_BACKOFF_MS * 2 ^ k) (RETRY_WALL_TIME_MS - elapsed) := by
  apply le_min
  · unfold INITIAL_BACKOFF_MS
    positivity
  · unfold RETRY_WALL_TIME_MS at *
    omega

theorem transientRetryOutcome_eval_lt (st : RetryState) (now : Int)
    (h : now - retryWindowStart st now < RETRY_WALL_TIME_MS) :
    transientRetryOutcome { st with iterations := st.iterations + 1 } now =
      .retryTransient
        (min (INITIAL_BACKOFF_MS * 2 ^ st.transientRetryCount)
          (RETRY_WALL_TIME_MS - (now - retryWindowStart st now)))
        { iterations := st.iterations
          transientRetryCount := st.transientRetryCount + 1
          transientRetryStart := retryWindowStart st now } := by
  have h1 : now - retryWindowStart { st with iterations := st.iterations + 1 } now <
      RETRY_WALL_TIME_MS := h
  unfold transientRetryOutcome
  rw [getTransientBackoff_eval_lt _ _ h1]
  rw [if_pos (backoffDelay_nonneg _ _ (by unfold RETRY_WALL_TIME_MS at *; omega))]
  have h2 : retryWindowStart { st with iterations := st.iterations + 1 } now =
      retryWindowStart st now := rfl
  simp [h2]

theorem transientRetryOutcome_eval_ge (st : RetryState) (now : Int)
    (h : RETRY_WALL_TIME_MS ≤ now - retryWindowStart st now) :
    transientRetryOutcome { st with iterations := st.iterations + 1 } now =
      .terminate "error"
        { iterations := st.iterations + 1
          transientRetryCount := st.transientRetryCount
          transientRetryStart := retryWindowStart st now } := by
  have h1 : RETRY_WALL_TIME_MS ≤
      now - retryWindowStart { st with iterations := st.iterations + 1 } now := h
  unfold transientRetryOutcome
  rw [getTransientBackoff_eval_ge _ _ h1]
  rw [if_neg (by norm_num)]
  rfl

/-- C6: a thrown completion error whose message marks it transient
(rate / 429 / 500 / 502 / 503), and equally a non-throwing response with
in-band `stopReason` `"error"` or `"aborted"`, is retried with
exponential backoff (`min(500·2^count, remaining window)`) whenever the
30-second wall-clock window since the first transient failure has not
elapsed — regardless of how many retries happened — and the failed
attempt does not consume an iteration (`iterations` is unchanged in the
retry state); once the window has elapsed the agent terminates with
status `"error"`; and the very first transient failure always falls
inside the window (the bound is wall-clock, never a retry count). -/
theorem c6_transient_retry_backoff (st : RetryState) (now : Int) (msg sr : String)
    (htm : isTransientErrorMessage msg = true)
    (hsr : isErrorStopReason sr = true) :
    (now - retryWindowStart st now < RETRY_WALL_TIME_MS →
      loopIterationStep st now (.threw msg) =
        .retryTransient
          (min (INITIAL_BACKOFF_MS * 2 ^ st.transientRetryCount)
            (RETRY_WALL_TIME_MS - (now - retryWindowStart st now)))
          { iterations := st.iterations
            transientRetryCount := st.transientRetryCount + 1
            transientRetryStart := retryWindowStart st now } ∧
      loopIterationStep st now (.responded sr) =
        loopIterationStep st now (.threw msg)) ∧
    (RETRY_WALL_TIME_MS ≤ now - retryWindowStart st now →
      loopIterationStep st now (.threw msg) =
        .terminate "error"
          { iterations := st.iterations + 1
            transientRetryCount := st.transientRetryCount
            transientRetryStart := retryWindowStart st now } ∧
      loopIterationStep st now (.responded sr) =
        loopIterationStep st now (.threw msg)) ∧
    (st.transientRetryCount = 0 → now - retryWindowStart st now < RETRY_WALL_TIME_MS) := by
  have hthrew : loopIterationStep st now (.threw msg) =
      transientRetryOutcome { st with iterations := st.iterations + 1 } now := by
    show (if isTransientErrorMessage msg then
        transientRetryOutcome { st with iterations := st.iterations + 1 } now
      else .terminate "error" { st with iterations := st.iterations + 1 }) = _
    rw [if_pos htm]
  have hresp : loopIterationStep st now (.responded sr) =
      transientRetryOutcome { st with iterations := st.iterations + 1 } now := by
    show (if isErrorStopReason sr then
        transientRetryOutcome { st with iterations := st.iterations + 1 } now
      else .proceed { st with iterations := st.iterations + 1, transientRetryCount := 0 }) = _
    rw [if_pos hsr]
  refine ⟨?_, ?_, ?_⟩
  · intro h
    rw [hthrew, hresp]
    exact ⟨transientRetryOutcome_eval_lt st now h, rfl⟩
  · intro h
    rw [hthrew, hresp]
    exact ⟨transientRetryOutcome_eval_ge st now h, rfl⟩
  · intro h0
    unfold retryWindowStart RETRY_WALL_TIME_MS
    rw [if_pos h0]
    omega

/-- Witness for C6: one prior retry, 1 second into the window, a thrown
429 and an in-band aborted response. -/
theorem c6_transient_retry_backoff_witness :
    isTransientErrorMessage "HTTP 429 too many requests" = true ∧
    isErrorStopReason "aborted" = true ∧
    (((2000 : Int) - retryWindowStart
        { iterations := 3, transientRetryCount := 1, transientRetryStart := 1000 } 2000 <
          RETRY_WALL_TIME_MS →
      loopIterationStep
          { iterations := 3, transientRetryCount := 1, transientRetryStart := 1000 } 2000
          (.threw "HTTP 429 too many requests") =
        .retryTransient
          (min (INITIAL_BACKOFF_MS * 2 ^ (1 : Nat))
            (RETRY_WALL_TIME_MS - ((2000 : Int) - retryWindowStart
              { iterations := 3, transientRetryCount := 1, transientRetryStart := 1000 } 2000)))
          { iterations := 3
            transientRetryCount := 1 + 1
            transientRetryStart := retryWindowStart
              { iterations := 3, transientRetryCount := 1, transientRetryStart := 1000 } 2000 } ∧
      loopIterationStep
          { iterations := 3, transientRetryCount := 1, transientRetryStart := 1000 } 2000
          (.responded "aborted") =
        loopIterationStep
          { iterations := 3, transientRetryCount := 1, transientRetryStart := 1000 } 2000
          (.threw "HTTP 429 too many requests")) ∧
    (RETRY_WALL_TIME_MS ≤ (2000 : Int) - retryWindowStart
        { iterations := 3, transientRetryCount := 1, transientRetryStart := 1000 } 2000 →
      loopIterationStep
          { iterations := 3, transientRetryCount := 1, transientRetryStart := 1000 } 2000
          (.threw "HTTP 429 too many requests") =
        .terminate "error"
          { iterations := 3 + 1
            transientRetryCount := 1
            transientRetryStart := retryWindowStart
              { iterations := 3, transientRetryCount := 1, transientRetryStart := 1000 } 2000 } ∧
      loopIterationStep
          { iterations := 3, transientRetryCount := 1, transientRetryStart := 1000 } 2000
          (.responded "aborted") =
        loopIterationStep
          { iterations := 3, transientRetryCount := 1, transientRetryStart := 1000 } 2000
          (.threw "HTTP 429 too many requests")) ∧
    (({ iterations := 3, transientRetryCount := 1, transientRetryStart := 1000 } :
        RetryState).transientRetryCount = 0 →
      (2000 : Int) - retryWindowStart
        { iterations := 3, transientRetryCount := 1, transientRetryStart := 1000 } 2000 <
          RETRY_WALL_TIME_MS)) :=
  ⟨by decide, by decide,
    c6_transient_retry_backoff
      { iterations := 3, transientRetryCount := 1, transientRetryStart := 1000 } 2000
      "HTTP 429 too many requests" "aborted" (by decide) (by decide)⟩


/-! ### C7: the array-coercion recovery pipeline -/

/-- C7: for every behaviour of the external layers (`JSON.parse`,
`jsonrepair`, the model-specific preprocessor) and every input value,
`coerceArray` is total (the embedding is a total function — nothing
throws) and returns: the array itself for an array input; `[]` for a
non-array non-string input; for a string input, either an array produced
by one of the three layers (strict parse, repair + parse, preprocess +
repair + parse) or `[]`; and when no layer yields an array, always
`[]`. -/
theorem c7_coerceArray_layers (parse : String → Option JsVal)
    (repair : String → Option String) (preprocess : String → String) (raw : JsVal) :
    (∀ xs, raw = .arr xs → coerceArray parse repair preprocess raw = xs) ∧
    (raw = .other → coerceArray parse repair preprocess raw = []) ∧
    (∀ s, raw = .str s →
      (coerceArray parse repair preprocess raw = [] ∨
      ∃ xs, coerceArray parse repair preprocess raw = xs ∧
        (parse s.trim = some (.arr xs) ∨
          (repair s.trim).bind parse = some (.arr xs) ∨
          (repair (preprocess s.trim)).bind parse = some (.arr xs)))) ∧
    (∀ s, raw = .str s →
      (∀ xs, parse s.trim ≠ some (.arr xs)) →
      (∀ xs, (repair s.trim).bind parse ≠ some (.arr xs)) →
      (∀ xs, (repair (preprocess s.trim)).bind parse ≠ some (.arr xs)) →
      coerceArray parse repair preprocess raw = []) := by
  refine ⟨?_, ?_, ?_, ?_⟩
  · intro xs h
    subst h
    rfl
  · intro h
    subst h
    rfl
  · intro s h
    subst h
    by_cases hg : ¬(s.trim.startsWith "[") ∧ ¬(s.trim.startsWith "\x7b")
    · left
      simp only [coerceArray]
      rw [if_pos hg]
    · simp only [coerceArray]
      rw [if_neg hg]
      split
      · rename_i xs heq
        exact Or.inr ⟨xs, rfl, Or.inl heq⟩
      · split
        · rename_i xs heq
          exact Or.inr ⟨xs, rfl, Or.inr (Or.inl heq)⟩
        · split
          · rename_i xs heq
            exact Or.inr ⟨xs, rfl, Or.inr (Or.inr heq)⟩
          · exact Or.inl rfl
  · intro s h hn1 hn2 hn3
    subst h
    simp only [coerceArray]
    split <;> rfl

/-- Witness for C7: an array input passes through unchanged even when
every layer fails. -/
theorem c7_coerceArray_layers_witness :
    coerceArray (fun _ => none) (fun _ => none) (fun s => s) (.arr [.other]) = [.other] :=
  (c7_coerceArray_layers (fun _ => none) (fun _ => none) (fun s => s)
    (.arr [.other])).1 [.other] rfl


/-! ### LSP-degradation lemmas and C8 -/

theorem lspNotifyStep_preserves_unavailable (st : LspRunState) :
    (lspNotifyStep st).lspUnavailable = st.lspUnavailable ∧
    (lspNotifyStep st).lspUnavailableReason = st.lspUnavailableReason := by
  unfold lspNotifyStep
  split
  · exact ⟨rfl, rfl⟩
  · exact ⟨rfl, rfl⟩

theorem lspTurnStep_preserves_latched (st : LspRunState)
    (calls : List (String × String)) (h : st.lspUnavailable = true) :
    (lspTurnStep st calls).lspUnavailable = true ∧
    (lspTurnStep st calls).lspUnavailableReason = st.lspUnavailableReason := by
  unfold lspTurnStep lspLatchStep
  rw [if_neg (by simp [h])]
  have hp := lspNotifyStep_preserves_unavailable st
  exact ⟨hp.1.trans h, hp.2⟩

theorem lspRun_preserves_latched (turns : List (List (String × String))) :
    ∀ st : LspRunState, st.lspUnavailable = true →
      (lspRun st turns).lspUnavailable = true ∧
      (lspRun st turns).lspUnavailableReason = st.lspUnavailableReason := by
  induction turns with
  | nil => intro st h; exact ⟨h, rfl⟩
  | cons calls rest ih =>
    intro st h
    have hstep := lspTurnStep_preserves_latched st calls h
    have hrest := ih (lspTurnStep st calls) hstep.1
    exact ⟨hrest.1, hrest.2.trans hstep.2⟩

theorem lspLatchStep_fields (st : LspRunState) (calls : List (String × String)) :
    ((lspLatchStep st calls).lspUnavailableNotified = st.lspUnavailableNotified ∧
      (lspLatchStep st calls).notifiedCount = st.notifiedCount) ∧
    ((lspLatchStep st calls).lspUnavailable = st.lspUnavailable ∨
      (st.lspUnavailable = false ∧ (lspLatchStep st calls).lspUnavailable = true)) := by
  unfold lspLatchStep
  split
  · rename_i h
    refine ⟨⟨rfl, rfl⟩, Or.inr ⟨?_, rfl⟩⟩
    simpa using h.2
  · exact ⟨⟨rfl, rfl⟩, Or.inl rfl⟩

theorem lspNotifyStep_cases (st : LspRunState) :
    (st.lspUnavailable = true ∧ st.lspUnavailableNotified = false ∧
      lspNotifyStep st = { st with
        lspUnavailableNotified := true
        notifiedCount := st.notifiedCount + 1 }) ∨
    ((st.lspUnavailable = false ∨ st.lspUnavailableNotified = true) ∧
      lspNotifyStep st = st) := by
  unfold lspNotifyStep
  split
  · rename_i h
    exact Or.inl ⟨h.1, by simpa using h.2, rfl⟩
  · rename_i h
    right
    refine ⟨?_, rfl⟩
    by_cases hu : st.lspUnavailable = true
    · by_cases hn : st.lspUnavailableNotified = true
      · exact Or.inr hn
      · exact absurd ⟨hu, by simpa using hn⟩ h
    · exact Or.inl (by simpa using hu)

theorem lspTurnStep_notify_invariant (st : LspRunState) (calls : List (String × String))
    (h : st.lspUnavailableNotified = st.lspUnavailable ∧
      st.notifiedCount = (if st.lspUnavailable then 1 else 0)) :
    (lspTurnStep st calls).lspUnavailableNotified = (lspTurnStep st calls).lspUnavailable ∧
    (lspTurnStep st calls).notifiedCount =
      (if (lspTurnStep st calls).lspUnavailable then 1 else 0) := by
  obtain ⟨h1, h2⟩ := h
  have hl := lspLatchStep_fields st calls
  have h1l : (lspLatchStep st calls).lspUnavailableNotified = st.lspUnavailableNotified :=
    hl.1.1
  have h2l : (lspLatchStep st calls).notifiedCount = st.notifiedCount := hl.1.2
  have hturn : lspTurnStep st calls = lspNotifyStep (lspLatchStep st calls) := rfl
  rw [hturn]
  rcases lspNotifyStep_cases (lspLatchStep st calls) with ⟨hu1, hn1, heq⟩ | ⟨hcase, heq⟩
  · rw [heq]
    constructor
    · simp [hu1]
    · have hn0 : st.lspUnavailableNotified = false := h1l ▸ hn1
      have hu0 : st.lspUnavailable = false := by rw [← h1, hn0]
      rw [h2l, h2, hu0]
      simp [hu1]
  · rw [heq]
    rcases hl.2 with heq2 | ⟨hsf, hst⟩
    · constructor
      · rw [h1l, heq2, h1]
      · rw [h2l, heq2, h2]
    · rcases hcase with hu0 | hn0
      · rw [hst] at hu0
        exact absurd hu0 (by simp)
      · rw [h1l, h1] at hn0
        rw [hn0] at hsf
        exact absurd hsf (by simp)

theorem lspRun_notify_invariant (turns : List (List (String × String))) :
    ∀ st : LspRunState,
      (st.lspUnavailableNotified = st.lspUnavailable ∧
        st.notifiedCount = (if st.lspUnavailable then 1 else 0)) →
      ((lspRun st turns).lspUnavailableNotified = (lspRun st turns).lspUnavailable ∧
        (lspRun st turns).notifiedCount =
          (if (lspRun st turns).lspUnavailable then 1 else 0)) := by
  induction turns with
  | nil => intro st h; exact h
  | cons calls rest ih =>
    intro st h
    exact ih (lspTurnStep st calls) (lspTurnStep_notify_invariant st calls h)

theorem lspLatchStep_latches (st : LspRunState) (calls : List (String × String))
    (h : turnSawLspUnavailable st calls = true) :
    (lspLatchStep st calls).lspUnavailable = true := by
  unfold lspLatchStep
  by_cases hu : st.lspUnavailable = true
  · rw [if_neg (by simp [hu])]
    exact hu
  · rw [Bool.not_eq_true] at hu
    rw [if_pos (by simp [h, hu])]

/-- C8: the LSP guardrail of `runMiniAgent` is a one-way latch — (i) a
turn in which any `lsp_symbols`/`lsp_references` result indicates
unavailability (initialize timeout, `[no lsp server]`, or
`lsp unavailable`) sets `lspUnavailable`; (ii) once set, it stays set
(with its reason unchanged) for the remainder of the run; (iii) while
set, every LSP tool call in every later turn is answered with the fixed
`[LSP unavailable: ...]` string, whatever the external tool would have
returned — the external executor's answer does not influence the served
result; and (iv) starting from the initial state, at most one "do not
call lsp_* tools" notification is ever injected, and exactly one when
the capability was marked unavailable. -/
theorem c8_lsp_unavailable_one_way_latch :
    (∀ (st : LspRunState) (calls : List (String × String)),
      turnSawLspUnavailable st calls = true →
        (lspTurnStep st calls).lspUnavailable = true) ∧
    (∀ (st : LspRunState) (turns : List (List (String × String))),
      st.lspUnavailable = true →
        (lspRun st turns).lspUnavailable = true ∧
        (lspRun st turns).lspUnavailableReason = st.lspUnavailableReason) ∧
    (∀ (st : LspRunState) (turns : List (List (String × String))) (name oracle : String),
      st.lspUnavailable = true → isLspToolName name = true →
        lspCallResult (lspRun st turns) name oracle =
          "[LSP unavailable: " ++
            (if st.lspUnavailableReason ≠ "" then st.lspUnavailableReason
             else "initialization failed") ++ "]") ∧
    (∀ turns : List (List (String × String)),
      (lspRun initialLspRunState turns).notifiedCount ≤ 1 ∧
      ((lspRun initialLspRunState turns).lspUnavailable = true →
        (lspRun initialLspRunState turns).notifiedCount = 1)) := by
  refine ⟨?_, ?_, ?_, ?_⟩
  · intro st calls h
    have hn := lspNotifyStep_preserves_unavailable (lspLatchStep st calls)
    exact hn.1.trans (lspLatchStep_latches st calls h)
  · exact fun st turns h => lspRun_preserves_latched turns st h
  · intro st turns name oracle h hname
    have hrun := lspRun_preserves_latched turns st h
    unfold lspCallResult
    rw [if_pos (by exact ⟨hname, hrun.1⟩), hrun.2]
  · intro turns
    have hinv := lspRun_notify_invariant turns initialLspRunState (by constructor <;> rfl)
    constructor
    · rw [hinv.2]
      split <;> omega
    · intro h
      rw [hinv.2, if_pos h]

/-- Witness for C8: a turn whose `lsp_symbols` answer is
`[no lsp server]` latches the state; in the latched state a later
`lsp_references` call is served the fixed message for any oracle answer;
one notification is counted. -/
theorem c8_lsp_unavailable_one_way_latch_witness :
    turnSawLspUnavailable initialLspRunState [("lsp_symbols", "[no lsp server]")] = true ∧
    (lspTurnStep initialLspRunState [("lsp_symbols", "[no lsp server]")]).lspUnavailable
      = true ∧
    ((lspRun initialLspRunState [[("lsp_symbols", "[no lsp server]")]]).lspUnavailable = true ∧
      (lspRun initialLspRunState [[("lsp_symbols", "[no lsp server]")]]).notifiedCount = 1) ∧
    lspCallResult
        { lspUnavailable := true, lspUnavailableReason := "initialize timeout"
          lspUnavailableNotified := true, notifiedCount := 1 }
        "lsp_references" "References (3 total)" =
      "[LSP unavailable: initialize timeout]" := by
  have hsaw : turnSawLspUnavailable initialLspRunState
      [("lsp_symbols", "[no lsp server]")] = true := by decide
  refine ⟨hsaw, c8_lsp_unavailable_one_way_latch.1 _ _ hsaw, ?_, ?_⟩
  · constructor
    · exact c8_lsp_unavailable_one_way_latch.1 _ _ hsaw
    · exact ((c8_lsp_unavailable_one_way_latch.2.2.2
        [[("lsp_symbols", "[no lsp server]")]]).2)
        (c8_lsp_unavailable_one_way_latch.1 _ _ hsaw)
  · have := c8_lsp_unavailable_one_way_latch.2.2.1
      { lspUnavailable := true, lspUnavailableReason := "initialize timeout"
        lspUnavailableNotified := true, notifiedCount := 1 }
      [] "lsp_references" "References (3 total)" rfl (by decide)
    simpa using this

end Turboread
